import Mathlib

/-!
# Verification of the tree-style-history-viewer core

A shallow embedding of the core logic of the browser-history viewer
(`src/history.js` and its variants): the referrer-based tree builder,
the consecutive-duplicate collapser, the search filter/clone pass, and
the shift-click range-selection logic, together with theorems settling
the specification's claims about them.
-/

set_option maxHeartbeats 1000000

/-! ## Data model

`VisitData` mirrors the fields of a chrome visit record that the core
reads: `visitId`, `referringVisitId` (a string id, absent or the
sentinel "0" when there is no referrer), `visitTime` and `transition`.
`HistoryItem` mirrors the owning history item (`url`, `title`).
-/

structure VisitData where
  visitId : String
  referringVisitId : Option String
  visitTime : Int
  transition : String
deriving DecidableEq, Repr

structure HistoryItem where
  url : String
  title : String
deriving DecidableEq, Repr

/-- The payload stored in each tree node: `{ visitData, historyItem }`
(the value kept in `allVisitsMap`). -/
structure NodeData where
  visitData : VisitData
  historyItem : HistoryItem
deriving DecidableEq, Repr

/-- A tree node as built by `fetchAndBuildTree`:
`{ id: visitId, data: { visitData, historyItem }, children: [] }`.
`data` is `Option`-valued because the search filter defensively skips
nodes whose payload is missing (`!node.data || !node.data.historyItem`). -/
inductive TreeNode where
  | mk (id : String) (data : Option NodeData) (children : List TreeNode)
deriving Repr

def TreeNode.id : TreeNode → String
  | .mk i _ _ => i

def TreeNode.data : TreeNode → Option NodeData
  | .mk _ d _ => d

def TreeNode.children : TreeNode → List TreeNode
  | .mk _ _ cs => cs

mutual

def decEqTreeNode (a b : TreeNode) : Decidable (a = b) :=
  match a, b with
  | .mk i1 d1 c1, .mk i2 d2 c2 =>
    match decEq i1 i2 with
    | isFalse h => isFalse (by simp [h])
    | isTrue h1 =>
      match decEq d1 d2 with
      | isFalse h => isFalse (by simp [h])
      | isTrue h2 =>
        match decEqTreeNodeList c1 c2 with
        | isFalse h => isFalse (by simp [h])
        | isTrue h3 => isTrue (by rw [h1, h2, h3])

def decEqTreeNodeList (a b : List TreeNode) : Decidable (a = b) :=
  match a, b with
  | [], [] => isTrue rfl
  | [], _ :: _ => isFalse (by simp)
  | _ :: _, [] => isFalse (by simp)
  | x :: xs, y :: ys =>
    match decEqTreeNode x y, decEqTreeNodeList xs ys with
    | isTrue h1, isTrue h2 => isTrue (by rw [h1, h2])
    | isFalse h, _ => isFalse (by simp [h])
    | _, isFalse h => isFalse (by simp [h])

end

instance : DecidableEq TreeNode := decEqTreeNode

/-! ## Selection range tracker (`handleShiftClickLogic`)

State: the list of currently visible checkbox states (the booleans of
`visibleCheckboxes`, read AFTER the browser has applied the click's own
toggle to the clicked element), and the anchor `lastCheckedIndex`
(a JS number, `-1` when unset, so modelled as `Int`).
-/

/-- Embeds `handleShiftClickLogic(event, clickedCheckbox, currentIndex)`.
`boxes` are the checked states of `visibleCheckboxes` after the click's
own toggle; `anchor` is `lastCheckedIndex`; `i` is `currentIndex`.
Returns the updated checkbox states and updated `lastCheckedIndex`.
The JS loop runs `k` from `min(anchor, i)` to `max(anchor, i)` and sets
`visibleCheckboxes[k].checked = targetState` whenever the element at `k`
exists; `List.mapIdx` restricted to the range is exactly that. -/
def handleShiftClickLogic (shiftKey : Bool) (boxes : List Bool) (anchor : Int)
    (i : Nat) : List Bool × Int :=
  if shiftKey = true ∧ anchor ≠ -1 ∧ anchor < (boxes.length : Int) then
    let s : Int := min anchor (i : Int)
    let e : Int := max anchor (i : Int)
    let target : Bool := boxes.getD i false
    (boxes.mapIdx (fun k b => if s ≤ (k : Int) ∧ (k : Int) ≤ e then target else b),
      anchor)
  else
    (boxes, (i : Int))

/-! ## Duplicate collapser (`filterConsecutiveDuplicatesInChildren`)

The source computes `indicesToRemove` = all `i` with
`children[i]?.data?.historyItem?.url` and `children[i+1]?...url` both
truthy and equal, then splices the marked indices out back-to-front
(which keeps exactly the unmarked indices, in order), then recurses into
each surviving child.  The identical pairwise logic is applied once more
to the final root list in `fetchAndBuildTree`.
-/

def nodeUrl : TreeNode → Option String
  | .mk _ d _ => d.map fun nd => nd.historyItem.url

/-- `currentUrl && nextUrl && currentUrl === nextUrl`: both urls reached
by the optional chaining, both truthy (nonempty), and equal. -/
def adjacentDupUrl (a b : TreeNode) : Bool :=
  match nodeUrl a, nodeUrl b with
  | some u, some v => u != "" && v != "" && u == v
  | _, _ => false

/-- Index `i` of the sibling list `l` is put into `indicesToRemove`. -/
def markedForRemoval (l : List TreeNode) (i : Nat) : Bool :=
  match l[i]?, l[i + 1]? with
  | some a, some b => adjacentDupUrl a b
  | _, _ => false

/-- Walks the suffix `s` of the sibling list `l` starting at position
`i`, dropping every marked index. -/
def removeMarkedAux (l : List TreeNode) : List TreeNode → Nat → List TreeNode
  | [], _ => []
  | a :: rest, i =>
    if markedForRemoval l i then removeMarkedAux l rest (i + 1)
    else a :: removeMarkedAux l rest (i + 1)

/-- One marking-and-removal pass over a sibling list. -/
def removeMarkedSiblings (l : List TreeNode) : List TreeNode :=
  removeMarkedAux l l 0

/-- Embeds `filterConsecutiveDuplicatesInChildren`: return unchanged when
fewer than two children (the source's early return, which also skips the
recursion); otherwise remove marked children, then recurse into each
surviving child. -/
def filterConsecutiveDuplicatesInChildren : TreeNode → TreeNode
  | .mk i d cs =>
    if cs.length < 2 then .mk i d cs
    else .mk i d ((removeMarkedSiblings cs).attach.map
      fun c => filterConsecutiveDuplicatesInChildren c.1)
termination_by t => sizeOf t
decreasing_by
  rename_i i d cs hlen
  have hmem : c.1 ∈ cs := by
    have key : ∀ (s : List TreeNode) (k : Nat) (x : TreeNode),
        x ∈ removeMarkedAux cs s k → x ∈ s := by
      intro s
      induction s with
      | nil => intro k x hx; simp [removeMarkedAux] at hx
      | cons a rest ih =>
        intro k x hx
        simp only [removeMarkedAux] at hx
        split at hx
        · exact List.mem_cons_of_mem _ (ih _ _ hx)
        · rcases List.mem_cons.mp hx with h | h
          · exact h ▸ List.mem_cons_self _ _
          · exact List.mem_cons_of_mem _ (ih _ _ h)
    exact key cs 0 c.1 c.2
  simp only [TreeNode.mk.sizeOf_spec]
  have h1 := List.sizeOf_lt_of_mem hmem
  omega

/-- Step 5 of `fetchAndBuildTree` with duplicate filtering enabled: each
root's children are collapsed recursively, then the root list itself gets
one pass of the identical pairwise-adjacent-equal-URL logic. -/
def collapseForestPass (roots : List TreeNode) : List TreeNode :=
  removeMarkedSiblings (roots.map filterConsecutiveDuplicatesInChildren)

/-- Recursive characterization of one marking-and-removal pass, used in
proofs: drop the first element exactly when the next sibling has the
same truthy url. -/
def collapseRecAux : List TreeNode → List TreeNode
  | [] => []
  | [a] => [a]
  | a :: b :: t =>
    if adjacentDupUrl a b then collapseRecAux (b :: t)
    else a :: collapseRecAux (b :: t)

/-- Maximal runs of adjacent elements related by `r`: formalizes the
spec's "maximal run of same-URL consecutive siblings". -/
def runsBy {α : Type} (r : α → α → Bool) : List α → List (List α)
  | [] => []
  | a :: t =>
    match runsBy r t with
    | [] => [[a]]
    | [] :: gs => [[a]] ++ gs
    | (b :: g) :: gs =>
      if r a b then (a :: b :: g) :: gs else [a] :: (b :: g) :: gs

/-- The node's url is present and truthy. -/
def truthyUrl (t : TreeNode) : Bool :=
  match nodeUrl t with
  | some u => u != ""
  | none => false

/-- Two sibling nodes share the same URL (the spec's run relation). -/
def sameUrl (a b : TreeNode) : Bool :=
  nodeUrl a == nodeUrl b

def nodeVisitTime (t : TreeNode) : Int :=
  match t.data with
  | some nd => nd.visitData.visitTime
  | none => 0

/-- A sibling list forming one single run: all members pairwise share a
truthy URL. -/
def SingleRun (l : List TreeNode) : Prop :=
  ∀ a ∈ l, ∀ b ∈ l, adjacentDupUrl a b = true

/-- Claim C3 as stated, read on a sibling list forming a single same-URL
run: every survivor of the duplicate-collapsing pass has the greatest
visitTime among the run's members. -/
def ClaimC3Statement : Prop :=
  ∀ l : List TreeNode, SingleRun l →
    ∀ t ∈ collapseForestPass l, ∀ s ∈ l, nodeVisitTime s ≤ nodeVisitTime t

/-- A leaf node (no children) with the given url and visit time. -/
def leafNode (id url : String) (time : Int) : TreeNode :=
  .mk id (some ⟨⟨id, none, time, "link"⟩, ⟨url, "title " ++ id⟩⟩) []

instance (l : List TreeNode) : Decidable (SingleRun l) :=
  inferInstanceAs (Decidable (∀ a ∈ l, ∀ b ∈ l, adjacentDupUrl a b = true))

/-! ## Search projector (`filterAndCloneTree`)

JS `haystack.includes(needle)` is contiguous-substring containment,
modelled over the character lists; `toLowerCase` is modelled as mapping
`Char.toLower` over the characters.
-/

def charListPrefix : List Char → List Char → Bool
  | [], _ => true
  | _ :: _, [] => false
  | a :: as, b :: bs => a == b && charListPrefix as bs

def charListInfix (pat : List Char) : List Char → Bool
  | [] => charListPrefix pat []
  | b :: rest => charListPrefix pat (b :: rest) || charListInfix pat rest

def lowerStr (s : String) : String := String.mk (s.data.map Char.toLower)

/-- `hay.includes(pat)`. -/
def strIncludes (hay pat : String) : Bool := charListInfix pat.data hay.data

/-- `nodeMatches`: the node's own (lowercased) title or url contains the
query as a substring. -/
def selfMatch (q : String) (nd : NodeData) : Bool :=
  strIncludes (lowerStr nd.historyItem.title) q ||
    strIncludes (lowerStr nd.historyItem.url) q

/-- Embeds `filterAndCloneTree(nodes, searchTextLower)`: with an empty
query return the original array unchanged; otherwise walk the list,
skipping nodes with a missing payload, keeping a node iff it self-matches
or its recursively filtered children are nonempty, as a shallow clone
carrying the original payload and the filtered children. -/
def filterAndCloneTree : List TreeNode → String → List TreeNode
  | nodes, q =>
    if q = "" then nodes
    else
      match nodes with
      | [] => []
      | .mk i d cs :: rest =>
        match d with
        | none => filterAndCloneTree rest q
        | some nd =>
          let fc := filterAndCloneTree cs q
          if selfMatch q nd || !fc.isEmpty then
            .mk i (some nd) fc :: filterAndCloneTree rest q
          else filterAndCloneTree rest q
termination_by nodes _ => sizeOf nodes
decreasing_by
  all_goals simp only [List.cons.sizeOf_spec, TreeNode.mk.sizeOf_spec]
  all_goals omega

mutual

/-- Written from the spec sentence: a node is retained iff its payload is
present and it self-matches or at least one retained child exists. -/
def specRetained (q : String) : TreeNode → Bool
  | .mk _ none _ => false
  | .mk _ (some nd) cs => selfMatch q nd || specRetainedAny q cs

def specRetainedAny (q : String) : List TreeNode → Bool
  | [] => false
  | t :: ts => specRetained q t || specRetainedAny q ts

end

/-- The shallow clone the filter produces for a retained node:
`{...node, children: filteredChildren}`. -/
def projectNode (q : String) : TreeNode → TreeNode
  | .mk i d cs => .mk i d (filterAndCloneTree cs q)

mutual

/-- Every node occurring anywhere in a tree (with its children as they
stand), root first. -/
def treeNodesList : TreeNode → List TreeNode
  | .mk i d cs => .mk i d cs :: forestNodesList cs

def forestNodesList : List TreeNode → List TreeNode
  | [] => []
  | t :: ts => treeNodesList t ++ forestNodesList ts

end

/-- The node's payload is present and self-matches the query. -/
def selfMatchNode (q : String) (t : TreeNode) : Bool :=
  match t.data with
  | some nd => selfMatch q nd
  | none => false

/-! ## Heap model of the search projector (for the aliasing claim)

To state "the canonical forest is never mutated and no node object is
shared by reference with the projection", node objects are modelled as
cells of an append-only heap addressed by index: `children` holds
addresses, reading a node is `h[a]?`, and the JS object clone
`\x7b...node, children: filteredChildren\x7d` is an allocation at the end
of the heap.  `fuel` bounds the recursion depth (the JS recursion is
finite on the tree-shaped heaps the builder produces); the frame
properties proved below hold for every fuel.
-/

structure HNode where
  id : String
  data : Option NodeData
  children : List Nat
deriving DecidableEq, Repr

abbrev Heap := List HNode

/-- Every cell's children addresses point inside the heap. -/
def HeapClosed (h : Heap) : Prop :=
  ∀ cell ∈ h, ∀ c ∈ cell.children, c < h.length

instance (h : Heap) : Decidable (HeapClosed h) :=
  inferInstanceAs (Decidable (∀ cell ∈ h, ∀ c ∈ cell.children, c < h.length))

/-- `h2` is `h` with zero or more cells allocated at the end. -/
def heapExtends (h2 h : Heap) : Prop := ∃ t, h2 = h ++ t

/-- `filterAndCloneTree` in store-passing style: walk the address list,
skip missing nodes and nodes with missing payload, recursively filter the
children, and for each kept node allocate a fresh clone cell carrying the
original `id` and payload and the freshly computed children addresses. -/
def filterCloneH (q : String) : Nat → Heap → List Nat → Heap × List Nat
  | 0, h, _ => (h, [])
  | fuel + 1, h, addrs =>
    if q = "" then (h, addrs)
    else
      match addrs with
      | [] => (h, [])
      | a :: rest =>
        match h[a]? with
        | none => filterCloneH q fuel h rest
        | some nd =>
          match nd.data with
          | none => filterCloneH q fuel h rest
          | some d =>
            let pr := filterCloneH q fuel h nd.children
            if selfMatch q d || !pr.2.isEmpty then
              let pr2 := filterCloneH q fuel
                (pr.1 ++ [HNode.mk nd.id (some d) pr.2]) rest
              (pr2.1, pr.1.length :: pr2.2)
            else
              filterCloneH q fuel pr.1 rest

/-! ## Tree builder (`fetchAndBuildTree`, steps 4 of the source)

`allVisitsMap` is an insertion-ordered map `visitId -> \x7bvisitData,
historyItem\x7d` with unique keys (`allVisitsMap.has` makes insertion
first-seen-wins), modelled as an association list whose keys are nodup
for a normalized mapping.  The builder materializes one node per entry,
then links every entry to `nodes[referringVisitId]` when the referrer id
is truthy, not "0" and present in the map, collecting the others as
tentative roots; a post-pass removes from the tentative roots every id
that occurs in some children list.
-/

abbrev VisitMap := List (String × NodeData)

def keyList (m : VisitMap) : List String := m.map Prod.fst

/-- `referringVisitId && referringVisitId !== "0" && nodes[referringVisitId]`:
the resolved referrer of an entry, if any. -/
def resolvedReferrer (m : VisitMap) (e : NodeData) : Option String :=
  match e.visitData.referringVisitId with
  | none => none
  | some r => if r ≠ "" ∧ r ≠ "0" ∧ r ∈ keyList m then some r else none

/-- One iteration of the linking loop.  State: (children lists keyed by
parent id, tentative root id list).  A child/root is only appended if not
already present by id (`parentNode.children.some(...)` /
`rootNodes.some(...)`). -/
def linkStep (m : VisitMap) (st : (String → List String) × List String)
    (p : String × NodeData) : (String → List String) × List String :=
  match resolvedReferrer m p.2 with
  | some r =>
    if p.1 ∈ st.1 r then st
    else (Function.update st.1 r (st.1 r ++ [p.1]), st.2)
  | none =>
    if p.1 ∈ st.2 then st else (st.1, st.2 ++ [p.1])

/-- The whole linking loop over the map, in insertion order. -/
def linkAll (m : VisitMap) : (String → List String) × List String :=
  m.foldl (linkStep m) (fun _ => [], [])

/-- The children ids attached under parent id `p`, in attachment order. -/
def childIds (m : VisitMap) (p : String) : List String := (linkAll m).1 p

def tentativeRootIds (m : VisitMap) : List String := (linkAll m).2

/-- `nonRootIds`: every id occurring in some node's children list. -/
def nonRootIds (m : VisitMap) : List String :=
  ((keyList m).map (childIds m)).flatten

/-- The refined root list: tentative roots that are nobody's child. -/
def finalRootIds (m : VisitMap) : List String :=
  (tentativeRootIds m).filter (fun v => v ∉ nonRootIds m)

/-- The parent an entry gets attached under, as a function of its id. -/
def parentOf (m : VisitMap) (w : String) : Option String :=
  match m.lookup w with
  | none => none
  | some e => resolvedReferrer m e

/-- `n`-fold iteration of `parentOf` (the `n`-th ancestor id). -/
def parentIter (m : VisitMap) : Nat → String → Option String
  | 0, w => some w
  | n + 1, w => (parentIter m n w).bind (parentOf m)

/-- The referrer relation has no cycle (any cycle would lie inside the
key set and have length at most its size).  This is the spec's stated
precondition that visit chains are time-ordered. -/
def AcyclicReferrers (m : VisitMap) : Prop :=
  ∀ v ∈ keyList m, ∀ n ≤ (keyList m).length, 0 < n →
    parentIter m n v ≠ some v

instance (m : VisitMap) : Decidable (AcyclicReferrers m) :=
  inferInstanceAs (Decidable (∀ v ∈ keyList m, ∀ n ≤ (keyList m).length,
    0 < n → parentIter m n v ≠ some v))

/-- Whether `v` is the `k`-th ancestor of `w` for some `k ≤ n`. -/
def isAncWithin (m : VisitMap) (n : Nat) (v w : String) : Bool :=
  (List.range (n + 1)).any fun k => parentIter m k w == some v

/-- Materialize the node for id `v` with its attached children,
recursively, `fuel` bounding the depth (with acyclic referrers a fuel of
`(keyList m).length` reaches everything). -/
def buildNode (m : VisitMap) : Nat → String → TreeNode
  | 0, v => .mk v (m.lookup v) []
  | n + 1, v => .mk v (m.lookup v) ((childIds m v).map (buildNode m n))

/-- The forest produced by the build phase: the refined roots with their
recursively attached children. -/
def buildForest (m : VisitMap) : List TreeNode :=
  (finalRootIds m).map (buildNode m (keyList m).length)

mutual

/-- All visit ids occurring in a tree, root first. -/
def treeIds : TreeNode → List String
  | .mk v _ cs => v :: forestIds cs

/-- All visit ids occurring in a forest. -/
def forestIds : List TreeNode → List String
  | [] => []
  | t :: ts => treeIds t ++ forestIds ts

end

/-! ## Rebuild cycle and the canonical forest slot (`currentFullTree`)

`fetchAndBuildTree` clears the rendered tree and resets
`currentFullTree = []` synchronously at its start, then awaits the
history fetches, then stores the fully built (optionally collapsed)
forest, or `[]` again on error.  The slot's value is observable at the
suspension points of the async function (e.g. a search-input event
renders from `currentFullTree` while the fetches are awaited), so the
rebuild is modelled by the trace of slot values at those points.
-/

/-- Build then optionally collapse: the forest stored on success. -/
def buildPipeline (m : VisitMap) (dup : Bool) : List TreeNode :=
  if dup then collapseForestPass (buildForest m) else buildForest m

/-- Observable values of `currentFullTree`: before the call, after the
synchronous prologue that clears the slot (while the awaits are pending),
and after completion (the built forest on success, `[]` on error). -/
def rebuildSlotTrace (prev : List TreeNode) (m : VisitMap) (dup : Bool)
    (fetchFails : Bool) : List (List TreeNode) :=
  if fetchFails then [prev, [], []]
  else [prev, [], buildPipeline m dup]

/-- Claim C7 as stated: the previous canonical forest remains the stored
state at every observation point before the rebuild completes. -/
def ClaimC7Statement : Prop :=
  ∀ (prev : List TreeNode) (m : VisitMap) (dup fetchFails : Bool),
    ∀ s ∈ (rebuildSlotTrace prev m dup fetchFails).dropLast, s = prev

theorem getD_mapIdx (l : List Bool) (f : Nat → Bool → Bool) (k : Nat)
    (hk : k < l.length) :
    (l.mapIdx f).getD k false = f k (l.getD k false) := by
  simp [List.getD_eq_getElem?_getD, List.getElem?_eq_getElem, hk,
    List.getElem_mapIdx]

/-- C9: on a shift-click at index `i` with a set, in-bounds anchor `a`,
every index in `[min a i, max a i]` is set to the post-click state of the
clicked item, every index outside keeps its prior state, and the anchor
is unchanged. -/
theorem shiftClick_range_select (boxes : List Bool) (a i : Nat)
    (ha : a < boxes.length) (hi : i < boxes.length) :
    (handleShiftClickLogic true boxes (a : Int) i).2 = (a : Int) ∧
    (handleShiftClickLogic true boxes (a : Int) i).1.length = boxes.length ∧
    ∀ k, k < boxes.length →
      (handleShiftClickLogic true boxes (a : Int) i).1.getD k false =
        if min a i ≤ k ∧ k ≤ max a i then boxes.getD i false
        else boxes.getD k false := by
  have hcond : ((true : Bool) = true ∧ (a : Int) ≠ -1 ∧ (a : Int) < (boxes.length : Int)) := by
    refine ⟨rfl, ?_, ?_⟩
    · omega
    · exact_mod_cast ha
  refine ⟨?_, ?_, ?_⟩
  · unfold handleShiftClickLogic
    rw [if_pos hcond]
  · unfold handleShiftClickLogic
    rw [if_pos hcond]
    exact List.length_mapIdx ..
  · intro k hk
    unfold handleShiftClickLogic
    rw [if_pos hcond]
    show (boxes.mapIdx fun k b =>
        if min (a : Int) (i : Int) ≤ (k : Int) ∧ (k : Int) ≤ max (a : Int) (i : Int)
        then boxes.getD i false else b).getD k false = _
    rw [getD_mapIdx _ _ _ hk]
    have hmin : min (a : Int) (i : Int) = ((min a i : Nat) : Int) := by
      simp [Nat.cast_min]
    have hmax : max (a : Int) (i : Int) = ((max a i : Nat) : Int) := by
      simp [Nat.cast_max]
    rw [hmin, hmax]
    by_cases h : min a i ≤ k ∧ k ≤ max a i
    · rw [if_pos h, if_pos (by exact_mod_cast h)]
    · rw [if_neg h, if_neg (by
        intro hc
        exact h (by exact_mod_cast hc))]

theorem shiftClick_range_select_witness :
    2 < 6 ∧ 5 < 6 ∧
    ((handleShiftClickLogic true [false, false, false, false, false, true]
        (2 : Int) 5).2 = (2 : Int) ∧
     (handleShiftClickLogic true [false, false, false, false, false, true]
        (2 : Int) 5).1.length = 6 ∧
     ∀ k, k < 6 →
      (handleShiftClickLogic true [false, false, false, false, false, true]
          (2 : Int) 5).1.getD k false =
        if min 2 5 ≤ k ∧ k ≤ max 2 5 then
          ([false, false, false, false, false, true].getD 5 false)
        else ([false, false, false, false, false, true].getD k false)) :=
  ⟨by decide, by decide,
    shiftClick_range_select [false, false, false, false, false, true] 2 5
      (by decide) (by decide)⟩

/-- C10: a shift-click with an invalid anchor (`-1`, or not less than the
length of the visible list) is handled exactly like a plain click: the
boxes are untouched and the anchor becomes the clicked index. -/
theorem shiftClick_invalid_anchor (boxes : List Bool) (anchor : Int) (i : Nat)
    (h : anchor = -1 ∨ (boxes.length : Int) ≤ anchor) :
    handleShiftClickLogic true boxes anchor i = (boxes, (i : Int)) ∧
    handleShiftClickLogic true boxes anchor i =
      handleShiftClickLogic false boxes anchor i := by
  have hcond : ¬ ((true : Bool) = true ∧ anchor ≠ -1 ∧ anchor < (boxes.length : Int)) := by
    rcases h with h | h
    · rintro ⟨-, hne, -⟩; exact hne h
    · rintro ⟨-, -, hlt⟩; omega
  have hfalse : ¬ ((false : Bool) = true ∧ anchor ≠ -1 ∧ anchor < (boxes.length : Int)) :=
    fun hc => absurd hc.1 (by decide)
  constructor
  · unfold handleShiftClickLogic
    rw [if_neg hcond]
  · unfold handleShiftClickLogic
    rw [if_neg hcond, if_neg hfalse]

theorem shiftClick_invalid_anchor_witness :
    (((-1 : Int) = -1 ∨ (([true, false].length : Nat) : Int) ≤ -1) ∧
      handleShiftClickLogic true [true, false] (-1) 1 = ([true, false], (1 : Int))) :=
  ⟨Or.inl rfl,
    (shiftClick_invalid_anchor [true, false] (-1) 1 (Or.inl rfl)).1⟩

/-! ### Collapser lemmas -/

theorem removeMarkedAux_eq_collapseRec (l : List TreeNode) :
    ∀ (s : List TreeNode) (i : Nat), l.drop i = s →
      removeMarkedAux l s i = collapseRecAux s := by
  intro s
  induction s with
  | nil => intro i h; rfl
  | cons a rest ih =>
    intro i h
    have hget0 : l[i]? = some a := by
      have h0 := List.getElem?_drop l i 0
      rw [h] at h0
      simpa using h0.symm
    have hdrop : l.drop (i + 1) = rest := by
      have h1 : l.drop (i + 1) = (l.drop i).drop 1 := by
        rw [List.drop_drop]
      rw [h1, h]
      rfl
    cases rest with
    | nil =>
      have hget1 : l[i + 1]? = none := by
        have h1 := List.getElem?_drop l i 1
        rw [h] at h1
        simpa using h1.symm
      simp [removeMarkedAux, markedForRemoval, hget0, hget1, collapseRecAux]
    | cons b t =>
      have hget1 : l[i + 1]? = some b := by
        have h1 := List.getElem?_drop l i 1
        rw [h] at h1
        simpa using h1.symm
      have hmark : markedForRemoval l i = adjacentDupUrl a b := by
        simp [markedForRemoval, hget0, hget1]
      rw [removeMarkedAux, hmark, collapseRecAux]
      by_cases hd : adjacentDupUrl a b = true
      · rw [if_pos hd, if_pos hd, ih (i + 1) hdrop]
      · rw [if_neg hd, if_neg hd, ih (i + 1) hdrop]

theorem removeMarked_eq_collapseRec (l : List TreeNode) :
    removeMarkedSiblings l = collapseRecAux l :=
  removeMarkedAux_eq_collapseRec l l 0 (by simp)

theorem adj_of_nodeUrl_eq {a a2 b b2 : TreeNode} (h1 : nodeUrl a2 = nodeUrl a)
    (h2 : nodeUrl b2 = nodeUrl b) : adjacentDupUrl a2 b2 = adjacentDupUrl a b := by
  unfold adjacentDupUrl
  rw [h1, h2]

theorem adj_congr_right {b c : TreeNode} (hbc : adjacentDupUrl b c = true)
    (a : TreeNode) : adjacentDupUrl a c = adjacentDupUrl a b := by
  unfold adjacentDupUrl at hbc ⊢
  rcases hb : nodeUrl b with _ | u <;> rw [hb] at hbc
  · simp at hbc
  rcases hc : nodeUrl c with _ | v <;> rw [hc] at hbc
  · simp at hbc
  simp only [Bool.and_eq_true, bne_iff_ne, ne_eq, beq_iff_eq] at hbc
  obtain ⟨⟨hu, hv⟩, huv⟩ := hbc
  rcases ha : nodeUrl a with _ | w
  · rfl
  · subst huv
    rfl

theorem adj_eq_sameUrl {a b : TreeNode} (ha : truthyUrl a = true)
    (hb : truthyUrl b = true) : adjacentDupUrl a b = sameUrl a b := by
  unfold truthyUrl at ha hb
  unfold adjacentDupUrl sameUrl
  rcases h1 : nodeUrl a with _ | u <;> rw [h1] at ha
  · simp at ha
  rcases h2 : nodeUrl b with _ | v <;> rw [h2] at hb
  · simp at hb
  have hu : (u != "") = true := by simpa using ha
  have hv : (v != "") = true := by simpa using hb
  change (u != "" && v != "" && u == v) = (some u == some v)
  rw [hu, hv, Bool.true_and, Bool.true_and]
  rfl

theorem mem_collapseRec {x : TreeNode} : ∀ {l : List TreeNode},
    x ∈ collapseRecAux l → x ∈ l := by
  intro l
  induction l with
  | nil => simp [collapseRecAux]
  | cons a t ih =>
    cases t with
    | nil => simp [collapseRecAux]
    | cons b t2 =>
      simp only [collapseRecAux]
      split
      · intro hx
        exact List.mem_cons_of_mem _ (ih hx)
      · intro hx
        rcases List.mem_cons.mp hx with h | h
        · exact h ▸ List.mem_cons_self _ _
        · exact List.mem_cons_of_mem _ (ih h)

theorem collapseRec_cons_head (b : TreeNode) (t : List TreeNode) :
    ∃ h2 t2, collapseRecAux (b :: t) = h2 :: t2 ∧
      ∀ a, adjacentDupUrl a h2 = adjacentDupUrl a b := by
  induction t generalizing b with
  | nil => exact ⟨b, [], rfl, fun a => rfl⟩
  | cons c t2 ih =>
    by_cases hd : adjacentDupUrl b c = true
    · obtain ⟨h2, t3, heq, hprop⟩ := ih c
      refine ⟨h2, t3, ?_, ?_⟩
      · rw [collapseRecAux, if_pos hd, heq]
      · intro a
        rw [hprop a, adj_congr_right hd a]
    · refine ⟨b, collapseRecAux (c :: t2), ?_, fun a => rfl⟩
      rw [collapseRecAux, if_neg hd]

theorem collapseRec_idem (l : List TreeNode) :
    collapseRecAux (collapseRecAux l) = collapseRecAux l := by
  induction l with
  | nil => rfl
  | cons a t ih =>
    cases t with
    | nil => rfl
    | cons b t2 =>
      simp only [collapseRecAux]
      by_cases hd : adjacentDupUrl a b = true
      · rw [if_pos hd]
        exact ih
      · rw [if_neg hd]
        obtain ⟨h2, t3, heq, hprop⟩ := collapseRec_cons_head b t2
        rw [heq]
        rw [collapseRecAux, hprop a, if_neg hd]
        rw [← heq, ih]

theorem collapseRec_map (g : TreeNode → TreeNode)
    (hg : ∀ t, nodeUrl (g t) = nodeUrl t) (l : List TreeNode) :
    collapseRecAux (l.map g) = (collapseRecAux l).map g := by
  induction l with
  | nil => rfl
  | cons a t ih =>
    cases t with
    | nil => rfl
    | cons b t2 =>
      have hadj : adjacentDupUrl (g a) (g b) = adjacentDupUrl a b :=
        adj_of_nodeUrl_eq (hg a) (hg b)
      rw [List.map_cons, List.map_cons, collapseRecAux, hadj, collapseRecAux]
      by_cases hd : adjacentDupUrl a b = true
      · rw [if_pos hd, if_pos hd, ← List.map_cons, ih]
      · rw [if_neg hd, if_neg hd, ← List.map_cons, ih, List.map_cons]

theorem filterCDC_short (i : String) (d : Option NodeData) (cs : List TreeNode)
    (h : cs.length < 2) :
    filterConsecutiveDuplicatesInChildren (.mk i d cs) = .mk i d cs := by
  unfold filterConsecutiveDuplicatesInChildren
  rw [if_pos h]

theorem filterCDC_long (i : String) (d : Option NodeData) (cs : List TreeNode)
    (h : ¬ cs.length < 2) :
    filterConsecutiveDuplicatesInChildren (.mk i d cs) =
      .mk i d ((removeMarkedSiblings cs).map filterConsecutiveDuplicatesInChildren) := by
  unfold filterConsecutiveDuplicatesInChildren
  rw [if_neg h, List.attach_map_val]

theorem nodeUrl_filterCDC (t : TreeNode) :
    nodeUrl (filterConsecutiveDuplicatesInChildren t) = nodeUrl t := by
  obtain ⟨i, d, cs⟩ := t
  by_cases h : cs.length < 2
  · rw [filterCDC_short i d cs h]
  · rw [filterCDC_long i d cs h]
    rfl

theorem filterCDC_idem_aux : ∀ (n : Nat) (t : TreeNode), sizeOf t ≤ n →
    filterConsecutiveDuplicatesInChildren (filterConsecutiveDuplicatesInChildren t) =
      filterConsecutiveDuplicatesInChildren t := by
  intro n
  induction n using Nat.strong_induction_on with
  | _ n ih =>
    intro t ht
    obtain ⟨i, d, cs⟩ := t
    by_cases h : cs.length < 2
    · rw [filterCDC_short i d cs h, filterCDC_short i d cs h]
    · rw [filterCDC_long i d cs h]
      by_cases h2 : ((removeMarkedSiblings cs).map
          filterConsecutiveDuplicatesInChildren).length < 2
      · rw [filterCDC_short _ _ _ h2]
      · rw [filterCDC_long _ _ _ h2]
        congr 1
        rw [removeMarked_eq_collapseRec, removeMarked_eq_collapseRec,
          collapseRec_map _ nodeUrl_filterCDC, collapseRec_idem, List.map_map]
        apply List.map_congr_left
        intro x hx
        have hx2 : x ∈ cs := mem_collapseRec hx
        have hs := List.sizeOf_lt_of_mem hx2
        have hlt : sizeOf x < n := by
          simp only [TreeNode.mk.sizeOf_spec] at ht
          omega
        exact ih (sizeOf x) hlt x (le_refl _)

theorem filterCDC_idem (t : TreeNode) :
    filterConsecutiveDuplicatesInChildren (filterConsecutiveDuplicatesInChildren t) =
      filterConsecutiveDuplicatesInChildren t :=
  filterCDC_idem_aux (sizeOf t) t (le_refl _)

/-- C4: the full duplicate-collapsing pass of `fetchAndBuildTree`
(recursive children pass on every root, then the root-list pass) is
idempotent: applying it twice equals applying it once. -/
theorem collapseForestPass_idempotent (roots : List TreeNode) :
    collapseForestPass (collapseForestPass roots) = collapseForestPass roots := by
  unfold collapseForestPass
  rw [removeMarked_eq_collapseRec, removeMarked_eq_collapseRec,
    ← collapseRec_map _ nodeUrl_filterCDC, collapseRec_idem, List.map_map]
  congr 1
  apply List.map_congr_left
  intro x _
  exact filterCDC_idem x

theorem runsBy_cons {α : Type} (r : α → α → Bool) (a : α) (t : List α) :
    runsBy r (a :: t) =
      match runsBy r t with
      | [] => [[a]]
      | [] :: gs => [[a]] ++ gs
      | (b :: g) :: gs =>
        if r a b then (a :: b :: g) :: gs else [a] :: (b :: g) :: gs := by
  rfl

theorem runsBy_cons_head {α : Type} (r : α → α → Bool) (a : α) (t : List α) :
    ∃ g gs, runsBy r (a :: t) = (a :: g) :: gs := by
  induction t generalizing a with
  | nil => exact ⟨[], [], rfl⟩
  | cons b t2 ih =>
    obtain ⟨g, gs, h⟩ := ih b
    rw [runsBy_cons, h]
    by_cases hr : r a b = true
    · exact ⟨b :: g, gs, by simp [hr]⟩
    · exact ⟨[], (b :: g) :: gs, by simp [hr]⟩

theorem collapseRec_runs : ∀ (l : List TreeNode),
    (∀ t ∈ l, truthyUrl t = true) →
    collapseRecAux l = (runsBy sameUrl l).filterMap List.getLast? := by
  intro l
  induction l with
  | nil => intro _; rfl
  | cons a t ih =>
    intro h
    cases t with
    | nil => rfl
    | cons b t2 =>
      have ht : ∀ x ∈ b :: t2, truthyUrl x = true := fun x hx =>
        h x (List.mem_cons_of_mem _ hx)
      have hab : adjacentDupUrl a b = sameUrl a b :=
        adj_eq_sameUrl (h a (List.mem_cons_self _ _))
          (h b (List.mem_cons_of_mem _ (List.mem_cons_self _ _)))
      obtain ⟨g, gs, hr⟩ := runsBy_cons_head sameUrl b t2
      rw [runsBy_cons, hr, collapseRecAux, hab, ih ht, hr]
      by_cases hs : sameUrl a b = true
      · simp only [hs, if_pos]
        simp [List.filterMap_cons]
      · simp only [hs, if_neg]
        simp [List.filterMap_cons, hs]

/-- C2: one application of the duplicate-collapsing pass to a sibling
list (a children list or the root list) keeps exactly the last-positioned
element of every maximal run of consecutive same-URL siblings and removes
the earlier elements of each run; non-adjacent repeats fall into distinct
runs and are all preserved. -/
theorem removeMarked_keeps_last_of_runs (l : List TreeNode)
    (h : ∀ t ∈ l, truthyUrl t = true) :
    removeMarkedSiblings l = (runsBy sameUrl l).filterMap List.getLast? := by
  rw [removeMarked_eq_collapseRec]
  exact collapseRec_runs l h

theorem removeMarked_keeps_last_of_runs_witness :
    (∀ t ∈ [leafNode "1" "x" 1, leafNode "2" "x" 2, leafNode "3" "y" 3,
        leafNode "4" "x" 4], truthyUrl t = true) ∧
    removeMarkedSiblings [leafNode "1" "x" 1, leafNode "2" "x" 2,
        leafNode "3" "y" 3, leafNode "4" "x" 4] =
      (runsBy sameUrl [leafNode "1" "x" 1, leafNode "2" "x" 2,
        leafNode "3" "y" 3, leafNode "4" "x" 4]).filterMap List.getLast? :=
  ⟨by decide,
    removeMarked_keeps_last_of_runs _ (by decide)⟩

theorem filterCDC_leaf (i u : String) (t : Int) :
    filterConsecutiveDuplicatesInChildren (leafNode i u t) = leafNode i u t := by
  unfold leafNode
  exact filterCDC_short _ _ _ (by simp)

theorem collapseRec_singleRun : ∀ (l : List TreeNode) (x : TreeNode),
    SingleRun l → l.getLast? = some x → collapseRecAux l = [x] := by
  intro l
  induction l with
  | nil => intro x _ hx; simp at hx
  | cons a t ih =>
    intro x hrun hx
    cases t with
    | nil =>
      simp at hx
      subst hx
      rfl
    | cons b t2 =>
      have hab : adjacentDupUrl a b = true :=
        hrun a (List.mem_cons_self _ _)
          b (List.mem_cons_of_mem _ (List.mem_cons_self _ _))
      rw [collapseRecAux, if_pos hab]
      apply ih x
      · intro p hp q hq
        exact hrun p (List.mem_cons_of_mem _ hp) q (List.mem_cons_of_mem _ hq)
      · exact hx

theorem time_le_getLast : ∀ (l : List TreeNode) (x : TreeNode),
    l.getLast? = some x →
    l.Chain' (fun a b => nodeVisitTime a ≤ nodeVisitTime b) →
    ∀ s ∈ l, nodeVisitTime s ≤ nodeVisitTime x := by
  intro l
  induction l with
  | nil => intro x hx; simp at hx
  | cons a t ih =>
    intro x hx hc s hs
    cases t with
    | nil =>
      simp at hx hs
      subst hx
      subst hs
      exact le_refl _
    | cons b t2 =>
      obtain ⟨hab, hc2⟩ := List.chain'_cons.mp hc
      have hx2 : (b :: t2).getLast? = some x := hx
      rcases List.mem_cons.mp hs with h | h
      · subst h
        exact le_trans hab (ih x hx2 hc2 b (List.mem_cons_self _ _))
      · exact ih x hx2 hc2 s h

/-- Claim C3 as stated is false on the code: in the run
`[leaf "1" "x" 300, leaf "2" "x" 200]` the collapser keeps the
last-positioned node, whose visitTime 200 is NOT the greatest of the run. -/
theorem claimC3_counterexample : ¬ ClaimC3Statement := by
  intro h
  have hcol : collapseForestPass [leafNode "1" "x" 300, leafNode "2" "x" 200] =
      [leafNode "2" "x" 200] := by
    unfold collapseForestPass
    rw [List.map_cons, List.map_cons, List.map_nil, filterCDC_leaf, filterCDC_leaf]
    decide
  have hmem : leafNode "2" "x" 200 ∈
      collapseForestPass [leafNode "1" "x" 300, leafNode "2" "x" 200] := by
    rw [hcol]
    exact List.mem_cons_self _ _
  have h2 := h [leafNode "1" "x" 300, leafNode "2" "x" 200] (by decide)
    (leafNode "2" "x" 200) hmem (leafNode "1" "x" 300) (List.mem_cons_self _ _)
  exact absurd h2 (by decide)

/-- C3 amended: the survivor of every single same-URL run is the
last-positioned element of the run, whatever the time order of its
members; the survivor additionally carries the greatest visitTime when
the run is ordered by nondecreasing visitTime. -/
theorem collapse_singleRun_keeps_last (l : List TreeNode) (x : TreeNode)
    (hlast : l.getLast? = some x) (hrun : SingleRun l) :
    collapseForestPass l = [filterConsecutiveDuplicatesInChildren x] ∧
    (l.Chain' (fun a b => nodeVisitTime a ≤ nodeVisitTime b) →
      ∀ s ∈ l, nodeVisitTime s ≤ nodeVisitTime x) := by
  constructor
  · unfold collapseForestPass
    rw [removeMarked_eq_collapseRec]
    apply collapseRec_singleRun
    · intro p hp q hq
      obtain ⟨p0, hp0, hpe⟩ := List.mem_map.mp hp
      obtain ⟨q0, hq0, hqe⟩ := List.mem_map.mp hq
      rw [← hpe, ← hqe,
        adj_of_nodeUrl_eq (nodeUrl_filterCDC p0) (nodeUrl_filterCDC q0)]
      exact hrun p0 hp0 q0 hq0
    · rw [List.getLast?_map, hlast]
      rfl
  · intro hsorted
    exact time_le_getLast l x hlast hsorted

theorem collapse_singleRun_keeps_last_witness :
    (([leafNode "1" "x" 300, leafNode "2" "x" 200].getLast? =
        some (leafNode "2" "x" 200)) ∧
      SingleRun [leafNode "1" "x" 300, leafNode "2" "x" 200] ∧
      collapseForestPass [leafNode "1" "x" 300, leafNode "2" "x" 200] =
        [filterConsecutiveDuplicatesInChildren (leafNode "2" "x" 200)]) ∧
    (([leafNode "1" "x" 100, leafNode "2" "x" 200].Chain'
        (fun a b => nodeVisitTime a ≤ nodeVisitTime b)) ∧
      ∀ s ∈ [leafNode "1" "x" 100, leafNode "2" "x" 200],
        nodeVisitTime s ≤ nodeVisitTime (leafNode "2" "x" 200)) :=
  ⟨⟨by decide, by decide,
      (collapse_singleRun_keeps_last
        [leafNode "1" "x" 300, leafNode "2" "x" 200]
        (leafNode "2" "x" 200) (by decide) (by decide)).1⟩,
    ⟨by norm_num [List.chain'_cons, nodeVisitTime, leafNode, TreeNode.data],
      (collapse_singleRun_keeps_last
        [leafNode "1" "x" 100, leafNode "2" "x" 200]
        (leafNode "2" "x" 200) (by decide) (by decide)).2
        (by norm_num [List.chain'_cons, nodeVisitTime, leafNode,
          TreeNode.data])⟩⟩

/-! ### Search projector lemmas -/

theorem filterAndClone_empty_q (nodes : List TreeNode) :
    filterAndCloneTree nodes "" = nodes := by
  unfold filterAndCloneTree
  rw [if_pos rfl]

theorem filterAndClone_nil (q : String) : filterAndCloneTree [] q = [] := by
  unfold filterAndCloneTree
  by_cases h : q = ""
  · rw [if_pos h]
  · rw [if_neg h]

theorem filterAndClone_cons_none (i : String) (cs rest : List TreeNode)
    (q : String) (hq : q ≠ "") :
    filterAndCloneTree (.mk i none cs :: rest) q = filterAndCloneTree rest q := by
  conv_lhs => rw [filterAndCloneTree]
  rw [if_neg hq]

theorem filterAndClone_cons_some (i : String) (nd : NodeData)
    (cs rest : List TreeNode) (q : String) (hq : q ≠ "") :
    filterAndCloneTree (.mk i (some nd) cs :: rest) q =
      if selfMatch q nd || !(filterAndCloneTree cs q).isEmpty then
        .mk i (some nd) (filterAndCloneTree cs q) :: filterAndCloneTree rest q
      else filterAndCloneTree rest q := by
  conv_lhs => rw [filterAndCloneTree]
  rw [if_neg hq]

theorem filterAndClone_nonempty_eq : ∀ (n : Nat) (cs : List TreeNode),
    sizeOf cs ≤ n → ∀ (q : String), q ≠ "" →
    (!(filterAndCloneTree cs q).isEmpty) = specRetainedAny q cs := by
  intro n
  induction n using Nat.strong_induction_on with
  | _ n ih =>
    intro cs hcs q hq
    cases cs with
    | nil => rw [filterAndClone_nil, specRetainedAny]; rfl
    | cons t rest =>
      obtain ⟨i, d, cs0⟩ := t
      have hrest : (!(filterAndCloneTree rest q).isEmpty) = specRetainedAny q rest := by
        refine ih (sizeOf rest) ?_ rest (le_refl _) q hq
        simp only [List.cons.sizeOf_spec] at hcs
        omega
      cases d with
      | none =>
        rw [filterAndClone_cons_none i cs0 rest q hq, hrest, specRetainedAny,
          specRetained]
        simp
      | some nd =>
        have hcs0 : (!(filterAndCloneTree cs0 q).isEmpty) = specRetainedAny q cs0 := by
          refine ih (sizeOf cs0) ?_ cs0 (le_refl _) q hq
          simp only [List.cons.sizeOf_spec, TreeNode.mk.sizeOf_spec] at hcs
          omega
        rw [filterAndClone_cons_some i nd cs0 rest q hq]
        rw [specRetainedAny, specRetained, ← hcs0]
        by_cases hk : (selfMatch q nd || !(filterAndCloneTree cs0 q).isEmpty) = true
        · rw [if_pos hk, hk]
          rfl
        · rw [if_neg hk, hrest]
          rw [Bool.not_eq_true] at hk
          rw [hk]
          rfl

theorem specRetained_eq_keep (i : String) (nd : NodeData) (cs0 : List TreeNode)
    (q : String) (hq : q ≠ "") :
    specRetained q (.mk i (some nd) cs0) =
      (selfMatch q nd || !(filterAndCloneTree cs0 q).isEmpty) := by
  rw [specRetained, filterAndClone_nonempty_eq (sizeOf cs0) cs0 (le_refl _) q hq]

theorem filterAndClone_mem_iff : ∀ (l : List TreeNode) (q : String), q ≠ "" →
    ∀ (t : TreeNode), t ∈ filterAndCloneTree l q ↔
      ∃ s ∈ l, specRetained q s = true ∧ t = projectNode q s := by
  intro l
  induction l with
  | nil =>
    intro q hq t
    rw [filterAndClone_nil]
    simp
  | cons s rest ih =>
    intro q hq t
    obtain ⟨i, d, cs0⟩ := s
    cases d with
    | none =>
      rw [filterAndClone_cons_none i cs0 rest q hq]
      rw [ih q hq t]
      constructor
      · rintro ⟨s2, hs2, hr, he⟩
        exact ⟨s2, List.mem_cons_of_mem _ hs2, hr, he⟩
      · rintro ⟨s2, hs2, hr, he⟩
        rcases List.mem_cons.mp hs2 with h | h
        · subst h
          rw [specRetained] at hr
          exact absurd hr (by simp)
        · exact ⟨s2, h, hr, he⟩
    | some nd =>
      rw [filterAndClone_cons_some i nd cs0 rest q hq]
      have hkeep := specRetained_eq_keep i nd cs0 q hq
      by_cases hk : (selfMatch q nd || !(filterAndCloneTree cs0 q).isEmpty) = true
      · rw [if_pos hk]
        constructor
        · intro ht
          rcases List.mem_cons.mp ht with h | h
          · exact ⟨.mk i (some nd) cs0, List.mem_cons_self _ _,
              by rw [hkeep, hk], by rw [h]; rfl⟩
          · obtain ⟨s2, hs2, hr, he⟩ := (ih q hq t).mp h
            exact ⟨s2, List.mem_cons_of_mem _ hs2, hr, he⟩
        · rintro ⟨s2, hs2, hr, he⟩
          rcases List.mem_cons.mp hs2 with h | h
          · subst h
            subst he
            exact List.mem_cons_self _ _
          · exact List.mem_cons_of_mem _ ((ih q hq t).mpr ⟨s2, h, hr, he⟩)
      · rw [if_neg hk]
        rw [ih q hq t]
        constructor
        · rintro ⟨s2, hs2, hr, he⟩
          exact ⟨s2, List.mem_cons_of_mem _ hs2, hr, he⟩
        · rintro ⟨s2, hs2, hr, he⟩
          rcases List.mem_cons.mp hs2 with h | h
          · subst h
            rw [hkeep] at hr
            exact absurd hr hk
          · exact ⟨s2, h, hr, he⟩

theorem filterAndClone_leaf_matches : ∀ (n : Nat) (l : List TreeNode),
    sizeOf l ≤ n → ∀ (q : String), q ≠ "" →
    ∀ u ∈ forestNodesList (filterAndCloneTree l q),
      u.children = [] → selfMatchNode q u = true := by
  intro n
  induction n using Nat.strong_induction_on with
  | _ n ih =>
    intro l hl q hq u hu hleaf
    cases l with
    | nil =>
      rw [filterAndClone_nil] at hu
      simp [forestNodesList] at hu
    | cons s rest =>
      obtain ⟨i, d, cs0⟩ := s
      have hrest : sizeOf rest < sizeOf (TreeNode.mk i d cs0 :: rest) := by
        simp only [List.cons.sizeOf_spec, TreeNode.mk.sizeOf_spec]
        omega
      cases d with
      | none =>
        rw [filterAndClone_cons_none i cs0 rest q hq] at hu
        exact ih (sizeOf rest) (by omega) rest (le_refl _) q hq u hu hleaf
      | some nd =>
        rw [filterAndClone_cons_some i nd cs0 rest q hq] at hu
        by_cases hk : (selfMatch q nd || !(filterAndCloneTree cs0 q).isEmpty) = true
        · rw [if_pos hk] at hu
          rw [forestNodesList] at hu
          rcases List.mem_append.mp hu with h | h
          · rw [treeNodesList] at h
            rcases List.mem_cons.mp h with h2 | h2
            · subst h2
              rw [TreeNode.children] at hleaf
              rw [hleaf] at hk
              simp only [List.isEmpty_nil, Bool.not_true, Bool.or_false] at hk
              rw [selfMatchNode, TreeNode.data]
              exact hk
            · have hcs0 : sizeOf cs0 < sizeOf (TreeNode.mk i (some nd) cs0 :: rest) := by
                simp only [List.cons.sizeOf_spec, TreeNode.mk.sizeOf_spec]
                omega
              exact ih (sizeOf cs0) (by omega) cs0 (le_refl _) q hq u h2 hleaf
          · exact ih (sizeOf rest) (by omega) rest (le_refl _) q hq u h hleaf
        · rw [if_neg hk] at hu
          exact ih (sizeOf rest) (by omega) rest (le_refl _) q hq u hu hleaf

/-- C5: with an empty query the search projector returns the canonical
forest itself; with a non-empty query a node appears in the result iff
its payload is present and it self-matches (title or url contains the
query) or a retained descendant exists — in which case it appears as the
shallow clone with filtered children — and every leaf of the result is a
self-matching node.  Nodes with a missing payload are skipped. -/
theorem filterAndCloneTree_spec (l : List TreeNode) (q : String) (t : TreeNode)
    (hq : q ≠ "") :
    filterAndCloneTree l "" = l ∧
    (t ∈ filterAndCloneTree l q ↔
      ∃ s ∈ l, specRetained q s = true ∧ t = projectNode q s) ∧
    (∀ u ∈ forestNodesList (filterAndCloneTree l q), u.children = [] →
      selfMatchNode q u = true) :=
  ⟨filterAndClone_empty_q l,
    filterAndClone_mem_iff l q hq t,
    filterAndClone_leaf_matches (sizeOf l) l (le_refl _) q hq⟩

theorem filterAndCloneTree_spec_witness :
    ("x" : String) ≠ "" ∧
    (filterAndCloneTree [leafNode "1" "x" 1, leafNode "2" "y" 2] "" =
        [leafNode "1" "x" 1, leafNode "2" "y" 2] ∧
      (leafNode "1" "x" 1 ∈
          filterAndCloneTree [leafNode "1" "x" 1, leafNode "2" "y" 2] "x" ↔
        ∃ s ∈ [leafNode "1" "x" 1, leafNode "2" "y" 2],
          specRetained "x" s = true ∧ leafNode "1" "x" 1 = projectNode "x" s) ∧
      (∀ u ∈ forestNodesList
          (filterAndCloneTree [leafNode "1" "x" 1, leafNode "2" "y" 2] "x"),
        u.children = [] → selfMatchNode "x" u = true)) :=
  ⟨by decide,
    filterAndCloneTree_spec [leafNode "1" "x" 1, leafNode "2" "y" 2] "x"
      (leafNode "1" "x" 1) (by decide)⟩

/-! ### Heap model lemmas -/

theorem filterCloneH_zero (q : String) (h : Heap) (addrs : List Nat) :
    filterCloneH q 0 h addrs = (h, []) := rfl

theorem filterCloneH_succ_nil (q : String) (fuel : Nat) (h : Heap)
    (hq : q ≠ "") : filterCloneH q (fuel + 1) h [] = (h, []) := by
  unfold filterCloneH
  rw [if_neg hq]

theorem filterCloneH_succ_skip (q : String) (fuel : Nat) (h : Heap)
    (a : Nat) (rest : List Nat) (hq : q ≠ "") (hnone : h[a]? = none) :
    filterCloneH q (fuel + 1) h (a :: rest) = filterCloneH q fuel h rest := by
  simp only [filterCloneH, if_neg hq, hnone]

theorem filterCloneH_succ_nodata (q : String) (fuel : Nat) (h : Heap)
    (a : Nat) (rest : List Nat) (nd : HNode) (hq : q ≠ "")
    (hsome : h[a]? = some nd) (hd : nd.data = none) :
    filterCloneH q (fuel + 1) h (a :: rest) = filterCloneH q fuel h rest := by
  simp only [filterCloneH, if_neg hq, hsome, hd]

theorem filterCloneH_succ_some (q : String) (fuel : Nat) (h : Heap)
    (a : Nat) (rest : List Nat) (nd : HNode) (d : NodeData) (hq : q ≠ "")
    (hsome : h[a]? = some nd) (hd : nd.data = some d) :
    filterCloneH q (fuel + 1) h (a :: rest) =
      if selfMatch q d || !(filterCloneH q fuel h nd.children).2.isEmpty then
        ((filterCloneH q fuel ((filterCloneH q fuel h nd.children).1 ++
            [HNode.mk nd.id (some d) (filterCloneH q fuel h nd.children).2]) rest).1,
          (filterCloneH q fuel h nd.children).1.length ::
            (filterCloneH q fuel ((filterCloneH q fuel h nd.children).1 ++
              [HNode.mk nd.id (some d) (filterCloneH q fuel h nd.children).2]) rest).2)
      else filterCloneH q fuel (filterCloneH q fuel h nd.children).1 rest := by
  simp only [filterCloneH, if_neg hq, hsome, hd]

theorem heapExtends_refl (h : Heap) : heapExtends h h := ⟨[], by simp⟩

theorem heapExtends_trans {h3 h2 h : Heap} (h32 : heapExtends h3 h2)
    (h21 : heapExtends h2 h) : heapExtends h3 h := by
  obtain ⟨t1, rfl⟩ := h32
  obtain ⟨t2, rfl⟩ := h21
  exact ⟨t2 ++ t1, by simp⟩

theorem heapExtends_append (h : Heap) (t : List HNode) :
    heapExtends (h ++ t) h := ⟨t, rfl⟩

theorem heapExtends_length {h2 h : Heap} (he : heapExtends h2 h) :
    h.length ≤ h2.length := by
  obtain ⟨t, rfl⟩ := he
  simp

theorem heapExtends_getElem {h2 h : Heap} (he : heapExtends h2 h) (j : Nat)
    (hj : j < h.length) : h2[j]? = h[j]? := by
  obtain ⟨t, rfl⟩ := he
  simp [List.getElem?_append, hj]

theorem filterCloneH_succ_empty (fuel : Nat) (h : Heap) (addrs : List Nat) :
    filterCloneH "" (fuel + 1) h addrs = (h, addrs) := by
  simp only [filterCloneH, if_pos]

theorem filterCloneH_extends : ∀ (fuel : Nat) (q : String) (h : Heap)
    (addrs : List Nat), heapExtends (filterCloneH q fuel h addrs).1 h := by
  intro fuel
  induction fuel with
  | zero =>
    intro q h addrs
    rw [filterCloneH_zero]
    exact heapExtends_refl h
  | succ fuel ih =>
    intro q h addrs
    by_cases hq : q = ""
    · subst hq
      rw [filterCloneH_succ_empty]
      exact heapExtends_refl h
    cases addrs with
    | nil =>
      rw [filterCloneH_succ_nil q fuel h hq]
      exact heapExtends_refl h
    | cons a rest =>
      rcases hA : h[a]? with _ | nd
      · rw [filterCloneH_succ_skip q fuel h a rest hq hA]
        exact ih q h rest
      rcases hD : nd.data with _ | d
      · rw [filterCloneH_succ_nodata q fuel h a rest nd hq hA hD]
        exact ih q h rest
      rw [filterCloneH_succ_some q fuel h a rest nd d hq hA hD]
      by_cases hk : (selfMatch q d ||
          !(filterCloneH q fuel h nd.children).2.isEmpty) = true
      · rw [if_pos hk]
        exact heapExtends_trans (ih q _ rest)
          (heapExtends_trans (heapExtends_append _ _) (ih q h nd.children))
      · rw [if_neg hk]
        exact heapExtends_trans (ih q _ rest) (ih q h nd.children)

theorem filterCloneH_fresh : ∀ (fuel : Nat) (q : String) (h : Heap)
    (addrs : List Nat), q ≠ "" →
    ∀ a ∈ (filterCloneH q fuel h addrs).2,
      h.length ≤ a ∧ a < (filterCloneH q fuel h addrs).1.length := by
  intro fuel
  induction fuel with
  | zero =>
    intro q h addrs _ a ha
    rw [filterCloneH_zero] at ha
    simp at ha
  | succ fuel ih =>
    intro q h addrs hq a ha
    cases addrs with
    | nil =>
      rw [filterCloneH_succ_nil q fuel h hq] at ha
      simp at ha
    | cons x rest =>
      rcases hA : h[x]? with _ | nd
      · rw [filterCloneH_succ_skip q fuel h x rest hq hA] at ha ⊢
        exact ih q h rest hq a ha
      rcases hD : nd.data with _ | d
      · rw [filterCloneH_succ_nodata q fuel h x rest nd hq hA hD] at ha ⊢
        exact ih q h rest hq a ha
      rw [filterCloneH_succ_some q fuel h x rest nd d hq hA hD] at ha ⊢
      by_cases hk : (selfMatch q d ||
          !(filterCloneH q fuel h nd.children).2.isEmpty) = true
      · rw [if_pos hk] at ha ⊢
        dsimp only at ha ⊢
        have hx1 : h.length ≤ (filterCloneH q fuel h nd.children).1.length :=
          heapExtends_length (filterCloneH_extends fuel q h nd.children)
        have hx2 : ((filterCloneH q fuel h nd.children).1 ++
              [HNode.mk nd.id (some d) (filterCloneH q fuel h nd.children).2]).length ≤
            (filterCloneH q fuel ((filterCloneH q fuel h nd.children).1 ++
              [HNode.mk nd.id (some d) (filterCloneH q fuel h nd.children).2]) rest).1.length :=
          heapExtends_length (filterCloneH_extends fuel q _ rest)
      
        rcases List.mem_cons.mp ha with h1 | h1
        · subst h1
          refine ⟨hx1, ?_⟩
          have : ((filterCloneH q fuel h nd.children).1 ++
              [HNode.mk nd.id (some d) (filterCloneH q fuel h nd.children).2]).length =
              (filterCloneH q fuel h nd.children).1.length + 1 := by simp
          omega
        · have := ih q _ rest hq a h1
          have hlen : h.length ≤ ((filterCloneH q fuel h nd.children).1 ++
              [HNode.mk nd.id (some d) (filterCloneH q fuel h nd.children).2]).length := by
            simp only [List.length_append, List.length_cons, List.length_nil]
            omega
          exact ⟨le_trans hlen this.1, this.2⟩
      · rw [if_neg hk] at ha ⊢
        have hx1 : h.length ≤ (filterCloneH q fuel h nd.children).1.length :=
          heapExtends_length (filterCloneH_extends fuel q h nd.children)
        have := ih q _ rest hq a ha
        exact ⟨le_trans hx1 this.1, this.2⟩

theorem filterCloneH_fresh_children : ∀ (fuel : Nat) (q : String) (h : Heap)
    (addrs : List Nat), q ≠ "" →
    ∀ j, h.length ≤ j → ∀ cell, (filterCloneH q fuel h addrs).1[j]? = some cell →
      ∀ c ∈ cell.children, h.length ≤ c := by
  intro fuel
  induction fuel with
  | zero =>
    intro q h addrs _ j hj cell hcell
    rw [filterCloneH_zero] at hcell
    dsimp only at hcell
    rw [List.getElem?_eq_none (by omega)] at hcell
    exact absurd hcell (by simp)
  | succ fuel ih =>
    intro q h addrs hq j hj cell hcell
    cases addrs with
    | nil =>
      rw [filterCloneH_succ_nil q fuel h hq] at hcell
      dsimp only at hcell
      rw [List.getElem?_eq_none (by omega)] at hcell
      exact absurd hcell (by simp)
    | cons x rest =>
      rcases hA : h[x]? with _ | nd
      · rw [filterCloneH_succ_skip q fuel h x rest hq hA] at hcell
        exact ih q h rest hq j hj cell hcell
      rcases hD : nd.data with _ | d
      · rw [filterCloneH_succ_nodata q fuel h x rest nd hq hA hD] at hcell
        exact ih q h rest hq j hj cell hcell
      rw [filterCloneH_succ_some q fuel h x rest nd d hq hA hD] at hcell
      have hx1 : h.length ≤ (filterCloneH q fuel h nd.children).1.length :=
        heapExtends_length (filterCloneH_extends fuel q h nd.children)
      by_cases hk : (selfMatch q d ||
          !(filterCloneH q fuel h nd.children).2.isEmpty) = true
      · rw [if_pos hk] at hcell
        dsimp only at hcell
        by_cases hj1 : j < (filterCloneH q fuel h nd.children).1.length
        · have hstep : (filterCloneH q fuel ((filterCloneH q fuel h nd.children).1 ++
              [HNode.mk nd.id (some d) (filterCloneH q fuel h nd.children).2])
                rest).1[j]? = (filterCloneH q fuel h nd.children).1[j]? := by
            rw [heapExtends_getElem (filterCloneH_extends fuel q _ rest) j
              (by simp only [List.length_append, List.length_cons,
                List.length_nil]; omega)]
            simp [List.getElem?_append, hj1]
          rw [hstep] at hcell
          exact ih q h nd.children hq j hj cell hcell
        · by_cases hj2 : j = (filterCloneH q fuel h nd.children).1.length
          · subst hj2
            have hstep : (filterCloneH q fuel ((filterCloneH q fuel h nd.children).1 ++
                [HNode.mk nd.id (some d) (filterCloneH q fuel h nd.children).2])
                  rest).1[(filterCloneH q fuel h nd.children).1.length]? =
                some (HNode.mk nd.id (some d) (filterCloneH q fuel h nd.children).2) := by
              rw [heapExtends_getElem (filterCloneH_extends fuel q _ rest) _
                (by simp only [List.length_append, List.length_cons,
                  List.length_nil]; omega)]
              rw [List.getElem?_concat_length]
            rw [hstep] at hcell
            obtain rfl : cell = HNode.mk nd.id (some d)
                (filterCloneH q fuel h nd.children).2 := by
              exact (Option.some.injEq _ _ ▸ hcell).symm ▸ rfl
            intro c hc
            exact (filterCloneH_fresh fuel q h nd.children hq c hc).1
          · have hj3 : ((filterCloneH q fuel h nd.children).1 ++
                [HNode.mk nd.id (some d) (filterCloneH q fuel h nd.children).2]).length ≤ j := by
              simp only [List.length_append, List.length_cons, List.length_nil]
              omega
            have := ih q _ rest hq j hj3 cell hcell
            intro c hc
            have h4 := this c hc
            simp only [List.length_append, List.length_cons, List.length_nil] at h4
            omega
      · rw [if_neg hk] at hcell
        by_cases hj1 : j < (filterCloneH q fuel h nd.children).1.length
        · have hstep : (filterCloneH q fuel (filterCloneH q fuel h nd.children).1
              rest).1[j]? = (filterCloneH q fuel h nd.children).1[j]? := by
            rw [heapExtends_getElem (filterCloneH_extends fuel q _ rest) j hj1]
          rw [hstep] at hcell
          exact ih q h nd.children hq j hj cell hcell
        · have := ih q _ rest hq j (by omega) cell hcell
          intro c hc
          exact le_trans hx1 (this c hc)

theorem filterCloneH_payload : ∀ (fuel : Nat) (q : String) (h : Heap)
    (addrs : List Nat), q ≠ "" → (∀ x ∈ addrs, x < h.length) →
    ∀ a ∈ (filterCloneH q fuel h addrs).2, ∃ b ∈ addrs, ∃ n, h[b]? = some n ∧
      ∃ cs2, (filterCloneH q fuel h addrs).1[a]? =
        some (HNode.mk n.id n.data cs2) := by
  intro fuel
  induction fuel with
  | zero =>
    intro q h addrs _ _ a ha
    rw [filterCloneH_zero] at ha
    simp at ha
  | succ fuel ih =>
    intro q h addrs hq haddrs a ha
    cases addrs with
    | nil =>
      rw [filterCloneH_succ_nil q fuel h hq] at ha
      simp at ha
    | cons x rest =>
      have hrest : ∀ y ∈ rest, y < h.length := fun y hy =>
        haddrs y (List.mem_cons_of_mem _ hy)
      rcases hA : h[x]? with _ | nd
      · rw [filterCloneH_succ_skip q fuel h x rest hq hA] at ha ⊢
        obtain ⟨b, hb, n, hn, cs2, hres⟩ := ih q h rest hq hrest a ha
        exact ⟨b, List.mem_cons_of_mem _ hb, n, hn, cs2, hres⟩
      rcases hD : nd.data with _ | d
      · rw [filterCloneH_succ_nodata q fuel h x rest nd hq hA hD] at ha ⊢
        obtain ⟨b, hb, n, hn, cs2, hres⟩ := ih q h rest hq hrest a ha
        exact ⟨b, List.mem_cons_of_mem _ hb, n, hn, cs2, hres⟩
      rw [filterCloneH_succ_some q fuel h x rest nd d hq hA hD] at ha ⊢
      have hx1 : h.length ≤ (filterCloneH q fuel h nd.children).1.length :=
        heapExtends_length (filterCloneH_extends fuel q h nd.children)
      by_cases hk : (selfMatch q d ||
          !(filterCloneH q fuel h nd.children).2.isEmpty) = true
      · rw [if_pos hk] at ha ⊢
        dsimp only at ha ⊢
        have hlen2 : ((filterCloneH q fuel h nd.children).1 ++
            [HNode.mk nd.id (some d) (filterCloneH q fuel h nd.children).2]).length =
            (filterCloneH q fuel h nd.children).1.length + 1 := by simp
        rcases List.mem_cons.mp ha with h1 | h1
        · subst h1
          refine ⟨x, List.mem_cons_self _ _, nd, hA,
            (filterCloneH q fuel h nd.children).2, ?_⟩
          rw [heapExtends_getElem (filterCloneH_extends fuel q _ rest) _
            (by omega)]
          rw [List.getElem?_concat_length, hD]
        · have hrest2 : ∀ y ∈ rest, y < ((filterCloneH q fuel h nd.children).1 ++
              [HNode.mk nd.id (some d) (filterCloneH q fuel h nd.children).2]).length := by
            intro y hy
            have := hrest y hy
            omega
          obtain ⟨b, hb, n, hn, cs2, hres⟩ := ih q _ rest hq hrest2 a h1
          refine ⟨b, List.mem_cons_of_mem _ hb, n, ?_, cs2, hres⟩
          rw [← hn]
          rw [heapExtends_getElem (heapExtends_trans (heapExtends_append _ _)
            (filterCloneH_extends fuel q h nd.children)) b (hrest b hb)]
      · rw [if_neg hk] at ha ⊢
        have hrest2 : ∀ y ∈ rest, y < (filterCloneH q fuel h nd.children).1.length := by
          intro y hy
          have := hrest y hy
          omega
        obtain ⟨b, hb, n, hn, cs2, hres⟩ := ih q _ rest hq hrest2 a ha
        refine ⟨b, List.mem_cons_of_mem _ hb, n, ?_, cs2, hres⟩
        rw [← hn]
        rw [heapExtends_getElem (filterCloneH_extends fuel q h nd.children) b
          (hrest b hb)]

/-- C6: for a non-empty query the projector never writes an existing cell
of the canonical heap (the result heap is the old heap with cells
appended), every node of the returned projection is a freshly allocated
cell, fresh cells reference only fresh cells in their freshly computed
children arrays (so the projection aliases no canonical node object), and
every returned cell is a shallow clone carrying the id and payload of an
input node. -/
theorem filterClone_no_mutation_fresh_clones (q : String) (fuel : Nat)
    (h : Heap) (addrs : List Nat) (hq : q ≠ "")
    (haddrs : ∀ x ∈ addrs, x < h.length) :
    heapExtends (filterCloneH q fuel h addrs).1 h ∧
    (∀ a ∈ (filterCloneH q fuel h addrs).2,
      h.length ≤ a ∧ a < (filterCloneH q fuel h addrs).1.length) ∧
    (∀ j, h.length ≤ j → ∀ cell,
      (filterCloneH q fuel h addrs).1[j]? = some cell →
      ∀ c ∈ cell.children, h.length ≤ c) ∧
    (∀ a ∈ (filterCloneH q fuel h addrs).2, ∃ b ∈ addrs, ∃ n, h[b]? = some n ∧
      ∃ cs2, (filterCloneH q fuel h addrs).1[a]? =
        some (HNode.mk n.id n.data cs2)) :=
  ⟨filterCloneH_extends fuel q h addrs,
    filterCloneH_fresh fuel q h addrs hq,
    filterCloneH_fresh_children fuel q h addrs hq,
    filterCloneH_payload fuel q h addrs hq haddrs⟩

theorem filterClone_no_mutation_fresh_clones_witness :
    (("x" : String) ≠ "" ∧ (∀ a ∈ [0], a < ([HNode.mk "1"
        (some ⟨⟨"1", none, 1, "link"⟩, ⟨"x", "tx"⟩⟩) [1],
      HNode.mk "2" (some ⟨⟨"2", some "1", 2, "link"⟩, ⟨"y", "ty"⟩⟩) []] :
        Heap).length)) ∧
    (heapExtends (filterCloneH "x" 3 [HNode.mk "1"
        (some ⟨⟨"1", none, 1, "link"⟩, ⟨"x", "tx"⟩⟩) [1],
      HNode.mk "2" (some ⟨⟨"2", some "1", 2, "link"⟩, ⟨"y", "ty"⟩⟩) []] [0]).1
      [HNode.mk "1" (some ⟨⟨"1", none, 1, "link"⟩, ⟨"x", "tx"⟩⟩) [1],
       HNode.mk "2" (some ⟨⟨"2", some "1", 2, "link"⟩, ⟨"y", "ty"⟩⟩) []]) :=
  ⟨⟨by decide, by decide⟩,
    (filterClone_no_mutation_fresh_clones "x" 3
      [HNode.mk "1" (some ⟨⟨"1", none, 1, "link"⟩, ⟨"x", "tx"⟩⟩) [1],
       HNode.mk "2" (some ⟨⟨"2", some "1", 2, "link"⟩, ⟨"y", "ty"⟩⟩) []]
      [0] (by decide) (by decide)).1⟩

/-! ### Tree builder lemmas -/

theorem linkFold_spec (m : VisitMap) : ∀ (l : List (String × NodeData))
    (st : (String → List String) × List String),
    (l.map Prod.fst).Nodup →
    (∀ p ∈ l, ∀ r, p.1 ∉ st.1 r) →
    (∀ p ∈ l, p.1 ∉ st.2) →
    (∀ r, (l.foldl (linkStep m) st).1 r =
      st.1 r ++ (l.filter
        (fun pe => resolvedReferrer m pe.2 == some r)).map Prod.fst) ∧
    ((l.foldl (linkStep m) st).2 =
      st.2 ++ (l.filter
        (fun pe => (resolvedReferrer m pe.2).isNone)).map Prod.fst) := by
  intro l
  induction l with
  | nil =>
    intro st _ _ _
    constructor
    · intro r
      simp
    · simp
  | cons p l2 ih =>
    intro st hnodup hch hrt
    obtain ⟨w, e⟩ := p
    have hwl2 : ∀ p2 ∈ l2, p2.1 ≠ w := by
      intro p2 hp2
      simp only [List.map_cons, List.nodup_cons] at hnodup
      intro heq
      exact hnodup.1 (heq ▸ List.mem_map_of_mem Prod.fst hp2)
    have hnodup2 : (l2.map Prod.fst).Nodup := by
      simp only [List.map_cons, List.nodup_cons] at hnodup
      exact hnodup.2
    rcases hres : resolvedReferrer m e with _ | r0
    · -- tentative root
      have hstep : linkStep m st (w, e) =
          (st.1, st.2 ++ [w]) := by
        unfold linkStep
        simp only [hres]
        rw [if_neg (hrt (w, e) (List.mem_cons_self _ _))]
      rw [List.foldl_cons, hstep]
      have hch2 : ∀ p2 ∈ l2, ∀ r, p2.1 ∉ (st.1, st.2 ++ [w]).1 r := by
        intro p2 hp2 r
        exact hch p2 (List.mem_cons_of_mem _ hp2) r
      have hrt2 : ∀ p2 ∈ l2, p2.1 ∉ (st.1, st.2 ++ [w]).2 := by
        intro p2 hp2
        simp only [List.mem_append, List.mem_singleton]
        rintro (h1 | h1)
        · exact hrt p2 (List.mem_cons_of_mem _ hp2) h1
        · exact hwl2 p2 hp2 h1
      obtain ⟨ih1, ih2⟩ := ih (st.1, st.2 ++ [w]) hnodup2 hch2 hrt2
      constructor
      · intro r
        rw [ih1 r]
        simp only [List.filter_cons]
        have : (resolvedReferrer m (w, e).2 == some r) = false := by
          simp [hres]
        rw [this]
        simp
      · rw [ih2]
        simp only [List.filter_cons]
        have : ((resolvedReferrer m (w, e).2).isNone) = true := by
          simp [hres]
        rw [this]
        simp
    · -- attached to parent r0
      have hstep : linkStep m st (w, e) =
          (Function.update st.1 r0 (st.1 r0 ++ [w]), st.2) := by
        unfold linkStep
        simp only [hres]
        rw [if_neg (hch (w, e) (List.mem_cons_self _ _) r0)]
      rw [List.foldl_cons, hstep]
      have hch2 : ∀ p2 ∈ l2, ∀ r,
          p2.1 ∉ (Function.update st.1 r0 (st.1 r0 ++ [w]), st.2).1 r := by
        intro p2 hp2 r
        simp only [Function.update_apply]
        by_cases hr : r = r0
        · rw [if_pos hr]
          simp only [List.mem_append, List.mem_singleton]
          rintro (h1 | h1)
          · exact hch p2 (List.mem_cons_of_mem _ hp2) r0 h1
          · exact hwl2 p2 hp2 h1
        · rw [if_neg hr]
          exact hch p2 (List.mem_cons_of_mem _ hp2) r
      have hrt2 : ∀ p2 ∈ l2,
          p2.1 ∉ (Function.update st.1 r0 (st.1 r0 ++ [w]), st.2).2 :=
        fun p2 hp2 => hrt p2 (List.mem_cons_of_mem _ hp2)
      obtain ⟨ih1, ih2⟩ := ih _ hnodup2 hch2 hrt2
      constructor
      · intro r
        rw [ih1 r]
        simp only [Function.update_apply]
        by_cases hr : r = r0
        · subst hr
          rw [if_pos rfl]
          simp only [List.filter_cons]
          have : (resolvedReferrer m (w, e).2 == some r) = true := by
            simp [hres]
          rw [this]
          simp [Function.update_apply]
        · rw [if_neg hr]
          simp only [List.filter_cons]
          have : (resolvedReferrer m (w, e).2 == some r) = false := by
            simp only [hres, beq_eq_false_iff_ne, ne_eq, Option.some.injEq]
            exact fun hc => hr hc.symm
          rw [this]
          simp
      · rw [ih2]
        simp only [List.filter_cons]
        have : ((resolvedReferrer m (w, e).2).isNone) = false := by
          simp [hres]
        rw [this]
        simp

theorem lookup_eq_of_mem (m : VisitMap) (h : (keyList m).Nodup)
    {w : String} {e : NodeData} (hmem : (w, e) ∈ m) : m.lookup w = some e := by
  induction m with
  | nil => simp at hmem
  | cons p rest ih =>
    obtain ⟨w0, e0⟩ := p
    simp only [keyList, List.map_cons, List.nodup_cons] at h
    rcases List.mem_cons.mp hmem with h1 | h1
    · cases h1
      simp [List.lookup]
    · have hne : w ≠ w0 := by
        intro heq
        exact h.1 (heq ▸ List.mem_map_of_mem Prod.fst h1)
      have hbe : (w == w0) = false := by
        simpa using hne
      simp only [List.lookup, hbe]
      exact ih h.2 h1

theorem mem_keys_of_lookup {m : VisitMap} {w : String} {e : NodeData}
    (h : m.lookup w = some e) : w ∈ keyList m := by
  induction m with
  | nil => simp [List.lookup] at h
  | cons p rest ih =>
    obtain ⟨w0, e0⟩ := p
    by_cases hw : (w == w0) = true
    · simp only [keyList, List.map_cons]
      exact (beq_iff_eq.mp hw) ▸ List.mem_cons_self _ _
    · rw [Bool.not_eq_true] at hw
      simp only [List.lookup, hw] at h
      simp only [keyList, List.map_cons]
      exact List.mem_cons_of_mem _ (ih h)

theorem parentOf_entry (m : VisitMap) (h : (keyList m).Nodup)
    {w : String} {e : NodeData} (hmem : (w, e) ∈ m) :
    parentOf m w = resolvedReferrer m e := by
  unfold parentOf
  rw [lookup_eq_of_mem m h hmem]

theorem filter_map_fst_comm (l : VisitMap) (P : String × NodeData → Bool)
    (Q : String → Bool) (h : ∀ pe ∈ l, P pe = Q pe.1) :
    (l.filter P).map Prod.fst = (l.map Prod.fst).filter Q := by
  induction l with
  | nil => rfl
  | cons pe l2 ih =>
    have hhead := h pe (List.mem_cons_self _ _)
    have htail : ∀ p2 ∈ l2, P p2 = Q p2.1 := fun p2 hp2 =>
      h p2 (List.mem_cons_of_mem _ hp2)
    by_cases hq : Q pe.1 = true
    · simp [List.filter_cons, hhead, hq, ih htail]
    · rw [Bool.not_eq_true] at hq
      simp [List.filter_cons, hhead, hq, ih htail]

theorem childIds_eq (m : VisitMap) (h : (keyList m).Nodup) (p : String) :
    childIds m p = (keyList m).filter (fun w => parentOf m w == some p) := by
  have hcond : ∀ pe ∈ m, (resolvedReferrer m pe.2 == some p) =
      ((fun w => parentOf m w == some p) pe.1) := by
    intro pe hpe
    simp only []
    rw [parentOf_entry m h hpe]
  have h0 := (linkFold_spec m m (fun _ => [], []) h
    (fun q hq r => by simp) (fun q hq => by simp)).1 p
  unfold childIds linkAll
  rw [h0]
  dsimp only
  rw [List.nil_append]
  exact filter_map_fst_comm m _ _ hcond

theorem tentativeRootIds_eq (m : VisitMap) (h : (keyList m).Nodup) :
    tentativeRootIds m = (keyList m).filter (fun w => (parentOf m w).isNone) := by
  have hcond : ∀ pe ∈ m, ((resolvedReferrer m pe.2).isNone) =
      ((fun w => (parentOf m w).isNone) pe.1) := by
    intro pe hpe
    simp only []
    rw [parentOf_entry m h hpe]
  have h0 := (linkFold_spec m m (fun _ => [], []) h
    (fun q hq r => by simp) (fun q hq => by simp)).2
  unfold tentativeRootIds linkAll
  rw [h0]
  dsimp only
  rw [List.nil_append]
  exact filter_map_fst_comm m _ _ hcond

theorem parentOf_mem_keys {m : VisitMap} {w p : String}
    (h : parentOf m w = some p) : p ∈ keyList m := by
  unfold parentOf at h
  rcases hl : m.lookup w with _ | e
  · simp [hl] at h
  simp only [hl] at h
  unfold resolvedReferrer at h
  rcases hr : e.visitData.referringVisitId with _ | r
  · simp [hr] at h
  simp only [hr] at h
  by_cases hc : r ≠ "" ∧ r ≠ "0" ∧ r ∈ keyList m
  · rw [if_pos hc] at h
    cases h
    exact hc.2.2
  · rw [if_neg hc] at h
    simp at h

theorem parentOf_mem_keys_self {m : VisitMap} {w p : String}
    (h : parentOf m w = some p) : w ∈ keyList m := by
  unfold parentOf at h
  rcases hl : m.lookup w with _ | e
  · simp [hl] at h
  · exact mem_keys_of_lookup hl

theorem mem_childIds_iff (m : VisitMap) (hnd : (keyList m).Nodup)
    (v p : String) :
    v ∈ childIds m p ↔ v ∈ keyList m ∧ parentOf m v = some p := by
  rw [childIds_eq m hnd p, List.mem_filter]
  simp

theorem mem_tentative_iff (m : VisitMap) (hnd : (keyList m).Nodup)
    (v : String) :
    v ∈ tentativeRootIds m ↔ v ∈ keyList m ∧ parentOf m v = none := by
  rw [tentativeRootIds_eq m hnd, List.mem_filter]
  simp [Option.isNone_iff_eq_none]

theorem mem_nonRootIds_iff (m : VisitMap) (hnd : (keyList m).Nodup)
    (v : String) :
    v ∈ nonRootIds m ↔ v ∈ keyList m ∧ ∃ p, parentOf m v = some p := by
  unfold nonRootIds
  rw [List.mem_flatten]
  constructor
  · rintro ⟨L, hL, hv⟩
    obtain ⟨p, hp, rfl⟩ := List.mem_map.mp hL
    obtain ⟨h1, h2⟩ := (mem_childIds_iff m hnd v p).mp hv
    exact ⟨h1, p, h2⟩
  · rintro ⟨h1, p, h2⟩
    refine ⟨childIds m p, List.mem_map_of_mem _ (parentOf_mem_keys h2), ?_⟩
    exact (mem_childIds_iff m hnd v p).mpr ⟨h1, h2⟩

theorem finalRootIds_eq (m : VisitMap) (hnd : (keyList m).Nodup) :
    finalRootIds m = (keyList m).filter (fun w => (parentOf m w).isNone) := by
  have h1 : (tentativeRootIds m).filter (fun v => v ∉ nonRootIds m) =
      tentativeRootIds m := by
    apply List.filter_eq_self.mpr
    intro v hv
    obtain ⟨hk, hp⟩ := (mem_tentative_iff m hnd v).mp hv
    simp only [decide_eq_true_eq]
    intro hmem
    obtain ⟨-, p, hp2⟩ := (mem_nonRootIds_iff m hnd v).mp hmem
    rw [hp] at hp2
    exact Option.noConfusion hp2
  unfold finalRootIds
  rw [h1, tentativeRootIds_eq m hnd]

theorem count_filter_pos (l : List String) (p : String → Bool) (a : String)
    (h : p a = true) : (l.filter p).count a = l.count a := by
  induction l with
  | nil => rfl
  | cons b t ih =>
    by_cases hb : p b = true
    · simp [List.filter_cons, hb, List.count_cons, ih]
    · rw [Bool.not_eq_true] at hb
      simp [List.filter_cons, hb, List.count_cons, ih]
      intro heq
      rw [heq] at hb
      rw [hb] at h
      exact Bool.noConfusion h

theorem count_filter_neg (l : List String) (p : String → Bool) (a : String)
    (h : p a = false) : (l.filter p).count a = 0 := by
  rw [List.count_eq_zero]
  intro hmem
  have h2 := (List.mem_filter.mp hmem).2
  rw [h] at h2
  exact Bool.noConfusion h2

theorem sum_map_ite (l : List String) (p0 : String) (c : Nat) :
    (l.map fun p => if p = p0 then c else 0).sum = l.count p0 * c := by
  induction l with
  | nil => simp
  | cons a t ih =>
    simp only [List.map_cons, List.sum_cons, ih]
    by_cases h : a = p0
    · subst h
      rw [if_pos rfl]
      simp [List.count_cons]
      ring
    · rw [if_neg h]
      have : (a == p0) = false := by simpa using h
      simp [List.count_cons, this]

theorem nonRootIds_perm (m : VisitMap) (hnd : (keyList m).Nodup) :
    List.Perm (nonRootIds m)
      ((keyList m).filter (fun w => (parentOf m w).isSome)) := by
  rw [List.perm_iff_count]
  intro v
  unfold nonRootIds
  rw [List.count_flatten, List.map_map]
  rcases hp : parentOf m v with _ | p0
  · have hz : ∀ x ∈ (keyList m).map (List.count v ∘ childIds m), x = 0 := by
      intro x hx
      obtain ⟨p, hpk, rfl⟩ := List.mem_map.mp hx
      show List.count v (childIds m p) = 0
      rw [childIds_eq m hnd p]
      apply count_filter_neg
      simp [hp]
    rw [List.sum_eq_zero hz, count_filter_neg _ _ _ (by simp [hp])]
  · have hL : ∀ p ∈ keyList m, (List.count v ∘ childIds m) p =
        (fun p => if p = p0 then (keyList m).count v else 0) p := by
      intro p hpk
      show List.count v (childIds m p) =
        if p = p0 then (keyList m).count v else 0
      rw [childIds_eq m hnd p]
      by_cases hpp : p = p0
      · subst hpp
        rw [if_pos rfl]
        apply count_filter_pos
        simp [hp]
      · rw [if_neg hpp]
        apply count_filter_neg
        have hne : p0 ≠ p := fun hc => hpp hc.symm
        simp [hp, hne]
    rw [List.map_congr_left hL, sum_map_ite]
    have hp0mem : p0 ∈ keyList m := parentOf_mem_keys hp
    rw [List.count_eq_one_of_mem hnd hp0mem, one_mul,
      count_filter_pos _ _ _ (by simp [hp])]

/-- C8: in the built forest a node is a root iff no node lists it as a
child: the final root ids and the ids occurring in children lists are
disjoint, and together they are a permutation of the input mapping's
keys (each key exactly once). -/
theorem build_roots_complement (m : VisitMap) (hnd : (keyList m).Nodup) :
    (∀ v ∈ keyList m, (v ∈ finalRootIds m ↔ v ∉ nonRootIds m)) ∧
    List.Perm (finalRootIds m ++ nonRootIds m) (keyList m) := by
  constructor
  · intro v hv
    constructor
    · intro hr hn
      rw [finalRootIds_eq m hnd] at hr
      have hnone := (List.mem_filter.mp hr).2
      obtain ⟨-, p, hp⟩ := (mem_nonRootIds_iff m hnd v).mp hn
      rw [hp] at hnone
      exact Bool.noConfusion hnone
    · intro hnot
      rw [finalRootIds_eq m hnd, List.mem_filter]
      refine ⟨hv, ?_⟩
      rcases hp : parentOf m v with _ | p
      · rfl
      · exact absurd ((mem_nonRootIds_iff m hnd v).mpr ⟨hv, p, hp⟩) hnot
  · have hA : List.Perm (finalRootIds m)
        ((keyList m).filter (fun w => (parentOf m w).isNone)) := by
      rw [finalRootIds_eq m hnd]
    have hAB := hA.append (nonRootIds_perm m hnd)
    refine hAB.trans ?_
    have hperm := List.filter_append_perm
      (fun w => (parentOf m w).isNone) (keyList m)
    have heq : ((keyList m).filter (fun w => !(parentOf m w).isNone)) =
        ((keyList m).filter (fun w => (parentOf m w).isSome)) := by
      apply List.filter_congr
      intro w _
      cases parentOf m w <;> rfl
    rw [heq] at hperm
    exact hperm

theorem build_roots_complement_witness :
    ((keyList [("1", (⟨⟨"1", none, 100, "link"⟩, ⟨"a", "ta"⟩⟩ : NodeData)),
        ("2", ⟨⟨"2", some "1", 200, "link"⟩, ⟨"b", "tb"⟩⟩),
        ("3", ⟨⟨"3", some "1", 150, "link"⟩, ⟨"c", "tc"⟩⟩)]).Nodup) ∧
    (∀ v ∈ keyList [("1", (⟨⟨"1", none, 100, "link"⟩, ⟨"a", "ta"⟩⟩ : NodeData)),
        ("2", ⟨⟨"2", some "1", 200, "link"⟩, ⟨"b", "tb"⟩⟩),
        ("3", ⟨⟨"3", some "1", 150, "link"⟩, ⟨"c", "tc"⟩⟩)],
      (v ∈ finalRootIds [("1", ⟨⟨"1", none, 100, "link"⟩, ⟨"a", "ta"⟩⟩),
        ("2", ⟨⟨"2", some "1", 200, "link"⟩, ⟨"b", "tb"⟩⟩),
        ("3", ⟨⟨"3", some "1", 150, "link"⟩, ⟨"c", "tc"⟩⟩)] ↔
       v ∉ nonRootIds [("1", ⟨⟨"1", none, 100, "link"⟩, ⟨"a", "ta"⟩⟩),
        ("2", ⟨⟨"2", some "1", 200, "link"⟩, ⟨"b", "tb"⟩⟩),
        ("3", ⟨⟨"3", some "1", 150, "link"⟩, ⟨"c", "tc"⟩⟩)])) :=
  ⟨by decide,
    (build_roots_complement _ (by decide)).1⟩

theorem parentIter_add (m : VisitMap) (a b : Nat) (w : String) :
    parentIter m (a + b) w = (parentIter m b w).bind (parentIter m a) := by
  induction a with
  | zero =>
    simp only [Nat.zero_add]
    cases parentIter m b w <;> rfl
  | succ a ih =>
    have : a + 1 + b = (a + b) + 1 := by omega
    rw [this, parentIter, ih]
    cases parentIter m b w with
    | none => rfl
    | some u => rfl

theorem parentIter_root_none (m : VisitMap) (r : String)
    (h : parentOf m r = none) : ∀ j, 0 < j → parentIter m j r = none := by
  intro j hj
  induction j with
  | zero => omega
  | succ j ih =>
    rw [parentIter]
    by_cases hj0 : 0 < j
    · rw [ih hj0]
      rfl
    · have : j = 0 := by omega
      subst this
      simp [parentIter, h]

theorem parentIter_mem_keys {m : VisitMap} {k : Nat} {w u : String}
    (hw : w ∈ keyList m) (h : parentIter m k w = some u) : u ∈ keyList m := by
  cases k with
  | zero =>
    simp only [parentIter, Option.some.injEq] at h
    exact h ▸ hw
  | succ k =>
    rw [parentIter] at h
    rcases hk : parentIter m k w with _ | u0
    · rw [hk] at h
      exact absurd h (by simp)
    · rw [hk] at h
      exact parentOf_mem_keys h

theorem isAncWithin_iff (m : VisitMap) (n : Nat) (v w : String) :
    isAncWithin m n v w = true ↔ ∃ k, k ≤ n ∧ parentIter m k w = some v := by
  unfold isAncWithin
  rw [List.any_eq_true]
  constructor
  · rintro ⟨k, hk, hbe⟩
    exact ⟨k, Nat.lt_succ_iff.mp (List.mem_range.mp hk), beq_iff_eq.mp hbe⟩
  · rintro ⟨k, hk, he⟩
    exact ⟨k, List.mem_range.mpr (Nat.lt_succ_iff.mpr hk), beq_iff_eq.mpr he⟩

theorem forestIds_map (g : String → TreeNode) (l : List String) :
    forestIds (l.map g) = (l.map fun x => treeIds (g x)).flatten := by
  induction l with
  | nil => rfl
  | cons x xs ih =>
    simp only [List.map_cons, List.flatten_cons, ← ih]
    rfl

theorem count_treeIds (m : VisitMap) (hnd : (keyList m).Nodup)
    (hacyc : AcyclicReferrers m) :
    ∀ (n : Nat), n ≤ (keyList m).length → ∀ v ∈ keyList m, ∀ (w : String),
    (treeIds (buildNode m n v)).count w =
      if isAncWithin m n v w then 1 else 0 := by
  intro n
  induction n with
  | zero =>
    intro hn v hv w
    show ([v] : List String).count w = _
    by_cases hvw : w = v
    · subst hvw
      rw [if_pos ((isAncWithin_iff m 0 w w).mpr ⟨0, by omega, rfl⟩)]
      simp
    · rw [if_neg (fun hA => by
        obtain ⟨k, hk, he⟩ := (isAncWithin_iff m 0 v w).mp hA
        have hk0 : k = 0 := by omega
        subst hk0
        simp only [parentIter, Option.some.injEq] at he
        exact hvw he)]
      simp [hvw]
  | succ n ih =>
    intro hn v hv w
    have hstep : treeIds (buildNode m (n + 1) v) =
        v :: ((childIds m v).map fun c => treeIds (buildNode m n c)).flatten := by
      show v :: forestIds ((childIds m v).map (buildNode m n)) = _
      rw [forestIds_map]
    rw [hstep, List.count_cons, List.count_flatten, List.map_map]
    have hchmem : ∀ c ∈ childIds m v, c ∈ keyList m ∧ parentOf m c = some v :=
      fun c hc => (mem_childIds_iff m hnd c v).mp hc
    have hrw : ∀ c ∈ childIds m v,
        (List.count w ∘ fun c => treeIds (buildNode m n c)) c =
        (fun c => if isAncWithin m n c w then 1 else 0) c := by
      intro c hc
      show List.count w (treeIds (buildNode m n c)) =
        if isAncWithin m n c w then 1 else 0
      exact ih (by omega) c (hchmem c hc).1 w
    rw [List.map_congr_left hrw]
    by_cases hvw : v = w
    · subst hvw
      have hz : ∀ x ∈ (childIds m v).map
          (fun c => if isAncWithin m n c v then 1 else 0), x = 0 := by
        intro x hx
        obtain ⟨c, hc, rfl⟩ := List.mem_map.mp hx
        rw [if_neg]
        intro hA
        obtain ⟨k, hk, he⟩ := (isAncWithin_iff m n c v).mp hA
        have hcyc : parentIter m (k + 1) v = some v := by
          rw [parentIter, he]
          exact (hchmem c hc).2
        exact hacyc v hv (k + 1) (by omega) (by omega) hcyc
      rw [List.sum_eq_zero hz,
        if_pos ((isAncWithin_iff m (n + 1) v v).mpr ⟨0, by omega, rfl⟩)]
      simp
    · have hvwb : ((v == w) = true) → False := by
        intro hb
        exact hvw (beq_iff_eq.mp hb)
      rw [if_neg hvwb]
      by_cases hK : ∃ K, K ≤ n + 1 ∧ parentIter m K w = some v
      · obtain ⟨K, hKle, hKe⟩ := hK
        have hK0 : K ≠ 0 := by
          intro h0
          subst h0
          simp only [parentIter, Option.some.injEq] at hKe
          exact hvw hKe.symm
        obtain ⟨K0, rfl⟩ : ∃ K0, K = K0 + 1 := ⟨K - 1, by omega⟩
        rw [parentIter] at hKe
        rcases hc0 : parentIter m K0 w with _ | c0
        · rw [hc0] at hKe
          exact absurd hKe (by simp)
        rw [hc0] at hKe
        have hKe2 : parentOf m c0 = some v := hKe
        have hc0k : c0 ∈ keyList m := parentOf_mem_keys_self hKe2
        have hc0ch : c0 ∈ childIds m v :=
          (mem_childIds_iff m hnd c0 v).mpr ⟨hc0k, hKe2⟩
        have hpt : ∀ c ∈ childIds m v,
            (fun c => if isAncWithin m n c w then 1 else 0) c =
            (fun c => if c = c0 then 1 else 0) c := by
          intro c hc
          show (if isAncWithin m n c w then 1 else 0) =
            if c = c0 then 1 else 0
          by_cases hcc : c = c0
          · subst hcc
            rw [if_pos rfl,
              if_pos ((isAncWithin_iff m n c w).mpr ⟨K0, by omega, hc0⟩)]
          · rw [if_neg hcc, if_neg]
            intro hA
            obtain ⟨k, hk, he⟩ := (isAncWithin_iff m n c w).mp hA
            have hkK : k ≠ K0 := by
              intro hkk
              subst hkk
              rw [he] at hc0
              exact hcc (Option.some.injEq .. ▸ hc0 ▸ rfl)
            by_cases hord : K0 < k
            · have hcomp := parentIter_add m (k - K0 - 1) (K0 + 1) w
              have hidx : (k - K0 - 1) + (K0 + 1) = k := by omega
              rw [hidx] at hcomp
              have hup : parentIter m (K0 + 1) w = some v := by
                rw [parentIter, hc0]
                exact hKe2
              rw [hup, he] at hcomp
              have hvc : parentIter m (k - K0 - 1) v = some c := hcomp.symm
              have hcyc : parentIter m (k - K0) v = some v := by
                have : k - K0 = (k - K0 - 1) + 1 := by omega
                rw [this, parentIter, hvc]
                exact (hchmem c hc).2
              exact hacyc v hv (k - K0) (by omega) (by omega) hcyc
            · have hord2 : k < K0 := by omega
              have hcomp := parentIter_add m (K0 - k) k w
              have hidx : (K0 - k) + k = K0 := by omega
              rw [hidx, he, hc0] at hcomp
              have hcc0 : parentIter m (K0 - k) c = some c0 := hcomp.symm
              have hone : parentIter m 1 c = some v := by
                show (parentIter m 0 c).bind (parentOf m) = some v
                exact (hchmem c hc).2
              have hcomp2 := parentIter_add m (K0 - k) 1 c
              have hidx2 : (K0 - k) + 1 = K0 - k + 1 := rfl
              rw [hidx2, hone] at hcomp2
              have hcomp3 : parentIter m (K0 - k + 1) c = some v := by
                have : K0 - k + 1 = (K0 - k) + 1 := rfl
                rw [this, parentIter, hcc0]
                exact hKe2
              rw [hcomp3] at hcomp2
              have hcyc : parentIter m (K0 - k) v = some v := hcomp2.symm
              exact hacyc v hv (K0 - k) (by omega) (by omega) hcyc
        rw [List.map_congr_left hpt, sum_map_ite]
        have hndch : (childIds m v).Nodup := by
          rw [childIds_eq m hnd v]
          exact hnd.filter _
        rw [List.count_eq_one_of_mem hndch hc0ch, one_mul,
          if_pos ((isAncWithin_iff m (n + 1) v w).mpr
            ⟨K0 + 1, hKle, by rw [parentIter, hc0]; exact hKe2⟩)]
      · have hz : ∀ x ∈ (childIds m v).map
            (fun c => if isAncWithin m n c w then 1 else 0), x = 0 := by
          intro x hx
          obtain ⟨c, hc, rfl⟩ := List.mem_map.mp hx
          rw [if_neg]
          intro hA
          obtain ⟨k, hk, he⟩ := (isAncWithin_iff m n c w).mp hA
          refine hK ⟨k + 1, by omega, ?_⟩
          rw [parentIter, he]
          exact (hchmem c hc).2
        rw [List.sum_eq_zero hz, if_neg]
        intro hA
        exact hK ((isAncWithin_iff m (n + 1) v w).mp hA)

theorem parentOf_none_of_not_mem {m : VisitMap} {w : String}
    (h : w ∉ keyList m) : parentOf m w = none := by
  unfold parentOf
  rcases hl : m.lookup w with _ | e
  · rfl
  · exact absurd (mem_keys_of_lookup hl) h

theorem root_anc_unique (m : VisitMap) {w r1 r2 : String} {k1 k2 : Nat}
    (h1 : parentIter m k1 w = some r1) (hr1 : parentOf m r1 = none)
    (h2 : parentIter m k2 w = some r2) (hr2 : parentOf m r2 = none) :
    r1 = r2 := by
  have key : ∀ (s1 s2 : String) (j1 j2 : Nat), j1 < j2 →
      parentIter m j1 w = some s1 → parentOf m s1 = none →
      parentIter m j2 w = some s2 → False := by
    intro s1 s2 j1 j2 hlt ha1 hs1 ha2
    have hcomp := parentIter_add m (j2 - j1) j1 w
    have hidx : (j2 - j1) + j1 = j2 := by omega
    rw [hidx, ha1, ha2] at hcomp
    have : parentIter m (j2 - j1) s1 = some s2 := hcomp.symm
    rw [parentIter_root_none m s1 hs1 (j2 - j1) (by omega)] at this
    exact Option.noConfusion this
  rcases Nat.lt_trichotomy k1 k2 with hlt | heq | hgt
  · exact absurd (key r1 r2 k1 k2 hlt h1 hr1 h2) not_false
  · subst heq
    rw [h1] at h2
    exact Option.some.injEq .. ▸ h2 ▸ rfl
  · exact absurd (key r2 r1 k2 k1 hgt h2 hr2 h1) not_false

theorem exists_root_anc (m : VisitMap) (hnd : (keyList m).Nodup)
    (hacyc : AcyclicReferrers m) (w : String) (hw : w ∈ keyList m) :
    ∃ K r, K ≤ (keyList m).length ∧ parentIter m K w = some r ∧
      parentOf m r = none ∧ r ∈ keyList m := by
  by_cases hex : ∃ K, K ≤ (keyList m).length ∧ ∃ r,
      parentIter m K w = some r ∧ parentOf m r = none
  · obtain ⟨K, hK, r, hanc, hnone⟩ := hex
    exact ⟨K, r, hK, hanc, hnone, parentIter_mem_keys hw hanc⟩
  · exfalso
    push_neg at hex
    have hdef : ∀ k, k ≤ (keyList m).length → (parentIter m k w).isSome := by
      intro k
      induction k with
      | zero =>
        intro _
        simp [parentIter]
      | succ k ihk =>
        intro hk1
        have h1 := ihk (by omega)
        obtain ⟨u, hu⟩ := Option.isSome_iff_exists.mp h1
        have h2 := hex k (by omega) u hu
        rw [parentIter, hu]
        rcases hpu : parentOf m u with _ | u2
        · exact absurd hpu h2
        · simp [hpu]
    have hval : ∀ k, k ≤ (keyList m).length →
        parentIter m k w = some ((parentIter m k w).getD "") := by
      intro k hk
      obtain ⟨u, hu⟩ := Option.isSome_iff_exists.mp (hdef k hk)
      rw [hu]
      rfl
    have hinj : ∀ x ∈ List.range ((keyList m).length + 1),
        ∀ y ∈ List.range ((keyList m).length + 1),
        (parentIter m x w).getD "" = (parentIter m y w).getD "" → x = y := by
      have key : ∀ x y, x < y → y ≤ (keyList m).length →
          (parentIter m x w).getD "" = (parentIter m y w).getD "" → False := by
        intro x y hxy hy heq
        have hvx := hval x (by omega)
        have hvy := hval y (by omega)
        have hcomp := parentIter_add m (y - x) x w
        have hidx : (y - x) + x = y := by omega
        rw [hidx, hvx, hvy] at hcomp
        rw [← heq] at hcomp
        have hcyc : parentIter m (y - x) ((parentIter m x w).getD "") =
            some ((parentIter m x w).getD "") := hcomp.symm
        have hmem : (parentIter m x w).getD "" ∈ keyList m :=
          parentIter_mem_keys hw (hval x (by omega))
        exact hacyc _ hmem (y - x) (by omega) (by omega) hcyc
      intro x hx y hy heq
      rw [List.mem_range] at hx hy
      rcases Nat.lt_trichotomy x y with hlt | heq2 | hgt
      · exact absurd (key x y hlt (by omega) heq) not_false
      · exact heq2
      · exact absurd (key y x hgt (by omega) heq.symm) not_false
    have hnodupL : ((List.range ((keyList m).length + 1)).map
        (fun k => (parentIter m k w).getD "")).Nodup :=
      (List.nodup_map_iff_inj_on (List.nodup_range _)).mpr hinj
    have hsub : ((List.range ((keyList m).length + 1)).map
        (fun k => (parentIter m k w).getD "")) ⊆ keyList m := by
      intro u hu
      obtain ⟨k, hk, rfl⟩ := List.mem_map.mp hu
      rw [List.mem_range] at hk
      exact parentIter_mem_keys hw (hval k (by omega))
    have hlen := (List.subperm_of_subset hnodupL hsub).length_le
    rw [List.length_map, List.length_range] at hlen
    omega

/-- C1: for a normalized visit mapping (unique visit ids) whose referrer
relation is acyclic, the forest built by the tree-building phase of
`fetchAndBuildTree` contains every visitId of the mapping exactly once:
the multiset of ids over all trees of the forest is a permutation of the
mapping's key list. -/
theorem buildForest_ids_perm (m : VisitMap) (hnd : (keyList m).Nodup)
    (hacyc : AcyclicReferrers m) :
    List.Perm (forestIds (buildForest m)) (keyList m) := by
  rw [List.perm_iff_count]
  intro w
  unfold buildForest
  rw [forestIds_map, List.count_flatten, List.map_map]
  have hroots_sub : ∀ r ∈ finalRootIds m,
      r ∈ keyList m ∧ parentOf m r = none := by
    intro r hr
    rw [finalRootIds_eq m hnd] at hr
    have h2 := List.mem_filter.mp hr
    exact ⟨h2.1, Option.isNone_iff_eq_none.mp h2.2⟩
  by_cases hw : w ∈ keyList m
  · obtain ⟨K, r0, hKN, hanc, hr0none, hr0keys⟩ :=
      exists_root_anc m hnd hacyc w hw
    have hr0root : r0 ∈ finalRootIds m := by
      rw [finalRootIds_eq m hnd]
      exact List.mem_filter.mpr ⟨hr0keys, by simp [hr0none]⟩
    have hpt : ∀ r ∈ finalRootIds m,
        (List.count w ∘ fun r => treeIds (buildNode m (keyList m).length r)) r =
        (fun r => if r = r0 then 1 else 0) r := by
      intro r hr
      obtain ⟨hrk, hrnone⟩ := hroots_sub r hr
      show List.count w (treeIds (buildNode m (keyList m).length r)) =
        if r = r0 then 1 else 0
      rw [count_treeIds m hnd hacyc (keyList m).length (le_refl _) r hrk w]
      by_cases hrr : r = r0
      · subst hrr
        rw [if_pos rfl,
          if_pos ((isAncWithin_iff m (keyList m).length r w).mpr ⟨K, hKN, hanc⟩)]
      · rw [if_neg hrr, if_neg]
        intro hA
        obtain ⟨k, hk, he⟩ := (isAncWithin_iff m (keyList m).length r w).mp hA
        exact hrr (root_anc_unique m he hrnone hanc hr0none)
    rw [List.map_congr_left hpt, sum_map_ite]
    have hndroots : (finalRootIds m).Nodup := by
      rw [finalRootIds_eq m hnd]
      exact hnd.filter _
    rw [List.count_eq_one_of_mem hndroots hr0root, one_mul,
      List.count_eq_one_of_mem hnd hw]
  · have hz : ∀ x ∈ (finalRootIds m).map
        (List.count w ∘ fun r => treeIds (buildNode m (keyList m).length r)),
        x = 0 := by
      intro x hx
      obtain ⟨r, hr, rfl⟩ := List.mem_map.mp hx
      obtain ⟨hrk, hrnone⟩ := hroots_sub r hr
      show List.count w (treeIds (buildNode m (keyList m).length r)) = 0
      rw [count_treeIds m hnd hacyc (keyList m).length (le_refl _) r hrk w,
        if_neg]
      intro hA
      obtain ⟨k, hk, he⟩ := (isAncWithin_iff m (keyList m).length r w).mp hA
      cases k with
      | zero =>
        simp only [parentIter, Option.some.injEq] at he
        exact hw (he ▸ hrk)
      | succ k =>
        have hpw : parentOf m w = none := parentOf_none_of_not_mem hw
        rw [parentIter_root_none m w hpw (k + 1) (by omega)] at he
        exact Option.noConfusion he
    rw [List.sum_eq_zero hz, List.count_eq_zero.mpr hw]

theorem buildForest_ids_perm_witness :
    ((keyList [("1", (⟨⟨"1", none, 100, "link"⟩, ⟨"a", "ta"⟩⟩ : NodeData)),
        ("2", ⟨⟨"2", some "1", 200, "link"⟩, ⟨"b", "tb"⟩⟩),
        ("3", ⟨⟨"3", some "1", 150, "link"⟩, ⟨"c", "tc"⟩⟩)]).Nodup) ∧
    AcyclicReferrers [("1", ⟨⟨"1", none, 100, "link"⟩, ⟨"a", "ta"⟩⟩),
        ("2", ⟨⟨"2", some "1", 200, "link"⟩, ⟨"b", "tb"⟩⟩),
        ("3", ⟨⟨"3", some "1", 150, "link"⟩, ⟨"c", "tc"⟩⟩)] ∧
    List.Perm (forestIds (buildForest
      [("1", ⟨⟨"1", none, 100, "link"⟩, ⟨"a", "ta"⟩⟩),
       ("2", ⟨⟨"2", some "1", 200, "link"⟩, ⟨"b", "tb"⟩⟩),
       ("3", ⟨⟨"3", some "1", 150, "link"⟩, ⟨"c", "tc"⟩⟩)]))
      (keyList [("1", ⟨⟨"1", none, 100, "link"⟩, ⟨"a", "ta"⟩⟩),
       ("2", ⟨⟨"2", some "1", 200, "link"⟩, ⟨"b", "tb"⟩⟩),
       ("3", ⟨⟨"3", some "1", 150, "link"⟩, ⟨"c", "tc"⟩⟩)]) :=
  ⟨by decide, by decide,
    buildForest_ids_perm _ (by decide) (by decide)⟩

/-- Claim C7 as stated is false on the code: `fetchAndBuildTree` resets
`currentFullTree = []` synchronously before awaiting the fetches, so with
a nonempty previous forest the cleared slot is observable before the
rebuild completes. -/
theorem claimC7_counterexample : ¬ ClaimC7Statement := by
  intro h
  have h2 := h [leafNode "1" "x" 1] [] false false ([] : List TreeNode)
    (by decide)
  exact absurd h2 (by decide)

/-- C7 amended: the canonical slot is cleared synchronously at the start
of the rebuild, so the cleared state — not the previous forest — is what
is observable while the fetch is awaited; no partially built forest is
ever observable (every observable state is the previous forest, the
cleared slot, or the fully built new forest), the trace starts at the
previous forest, and it ends with the new forest on success and with the
cleared slot on error. -/
theorem rebuildSlotTrace_spec (prev : List TreeNode) (m : VisitMap)
    (dup fetchFails : Bool) (s : List TreeNode)
    (hs : s ∈ rebuildSlotTrace prev m dup fetchFails) :
    ((rebuildSlotTrace prev m dup fetchFails).head? = some prev) ∧
    ((rebuildSlotTrace prev m dup fetchFails).getLast? =
      some (if fetchFails then [] else buildPipeline m dup)) ∧
    (s = prev ∨ s = [] ∨ s = buildPipeline m dup) := by
  unfold rebuildSlotTrace at hs ⊢
  cases fetchFails with
  | false =>
    rw [if_neg (by simp)] at hs ⊢
    refine ⟨rfl, by simp, ?_⟩
    simp only [List.mem_cons, List.not_mem_nil, or_false] at hs
    tauto
  | true =>
    rw [if_pos rfl] at hs ⊢
    refine ⟨rfl, by simp, ?_⟩
    simp only [List.mem_cons, List.not_mem_nil, or_false] at hs
    tauto

theorem rebuildSlotTrace_spec_witness :
    (([] : List TreeNode) ∈ rebuildSlotTrace [leafNode "1" "x" 1] [] false false) ∧
    (((rebuildSlotTrace [leafNode "1" "x" 1] [] false false).head? =
        some [leafNode "1" "x" 1]) ∧
     ((rebuildSlotTrace [leafNode "1" "x" 1] [] false false).getLast? =
        some (if false then [] else buildPipeline [] false)) ∧
     (([] : List TreeNode) = [leafNode "1" "x" 1] ∨ ([] : List TreeNode) = [] ∨
        ([] : List TreeNode) = buildPipeline [] false)) :=
  ⟨by decide,
    rebuildSlotTrace_spec [leafNode "1" "x" 1] [] false false [] (by decide)⟩
